import Mathlib

set_option autoImplicit false
set_option linter.unnecessarySeqFocus false

namespace Osmo

/-- Values as they occur in the resource dictionaries of
`src/osmo_gsm_tester/core/resource.py`: strings, integers, booleans,
Python `None`, lists, and (insertion-ordered, string-keyed) dicts,
modelled as association lists. -/
inductive Val : Type where
  | vstr : String → Val
  | vint : Int → Val
  | vbool : Bool → Val
  | vnone : Val
  | vlist : List Val → Val
  | vdict : List (String × Val) → Val
  deriving Repr

mutual

def vbeq : Val → Val → Bool
  | .vstr a, .vstr b => a == b
  | .vint a, .vint b => a == b
  | .vbool a, .vbool b => a == b
  | .vnone, .vnone => true
  | .vlist a, .vlist b => vbeqList a b
  | .vdict a, .vdict b => vbeqPairs a b
  | _, _ => false

def vbeqList : List Val → List Val → Bool
  | [], [] => true
  | x :: xs, y :: ys => vbeq x y && vbeqList xs ys
  | _, _ => false

def vbeqPairs : List (String × Val) → List (String × Val) → Bool
  | [], [] => true
  | (k, v) :: xs, (l, w) :: ys => k == l && vbeq v w && vbeqPairs xs ys
  | _, _ => false

end

/-- Structural induction for `Val` that goes through the nested lists. -/
def Val.recMem {P : Val → Prop}
    (hstr : ∀ s, P (.vstr s))
    (hint : ∀ n, P (.vint n))
    (hbool : ∀ b, P (.vbool b))
    (hnone : P .vnone)
    (hlist : ∀ l, (∀ v ∈ l, P v) → P (.vlist l))
    (hdict : ∀ l, (∀ p ∈ l, P (Prod.snd p)) → P (.vdict l)) :
    ∀ v, P v
  | .vstr s => hstr s
  | .vint n => hint n
  | .vbool b => hbool b
  | .vnone => hnone
  | .vlist l => hlist l (fun v hv =>
      have : sizeOf v < 1 + sizeOf l := by
        have := List.sizeOf_lt_of_mem hv
        omega
      Val.recMem hstr hint hbool hnone hlist hdict v)
  | .vdict l => hdict l (fun p hp =>
      have hs : sizeOf (Prod.snd p) < 1 + sizeOf l := by
        have h1 := List.sizeOf_lt_of_mem hp
        obtain ⟨k, v⟩ := p
        simp only [Prod.mk.sizeOf_spec] at h1
        show sizeOf v < 1 + sizeOf l
        omega
      Val.recMem hstr hint hbool hnone hlist hdict (Prod.snd p))
termination_by v => sizeOf v

theorem vbeq_iff : ∀ a b : Val, vbeq a b = true ↔ a = b := by
  intro a
  induction a using Val.recMem with
  | hstr s => intro b; cases b <;> simp [vbeq]
  | hint n => intro b; cases b <;> simp [vbeq]
  | hbool bb => intro b; cases b <;> simp [vbeq]
  | hnone => intro b; cases b <;> simp [vbeq]
  | hlist l ih =>
    intro b
    cases b <;> simp only [vbeq] <;> try simp
    case vlist m =>
      constructor
      · intro h
        suffices hl : ∀ m, vbeqList l m = true → l = m by simp [hl m h]
        clear h m
        induction l with
        | nil => intro m hm; cases m with
          | nil => rfl
          | cons y ys => simp [vbeqList] at hm
        | cons x xs ihx =>
          intro m hm
          cases m with
          | nil => simp [vbeqList] at hm
          | cons y ys =>
            simp only [vbeqList, Bool.and_eq_true] at hm
            have h1 : x = y := (ih x (by simp) y).mp hm.1
            have h2 : xs = ys := ihx (fun v hv b => ih v (by simp [hv]) b) ys hm.2
            rw [h1, h2]
      · rintro rfl
        induction l with
        | nil => simp [vbeqList]
        | cons x xs ihx =>
          simp only [vbeqList, Bool.and_eq_true]
          exact ⟨(ih x (by simp) x).mpr rfl, ihx (fun v hv b => ih v (by simp [hv]) b)⟩
  | hdict l ih =>
    intro b
    cases b <;> simp only [vbeq] <;> try simp
    case vdict m =>
      constructor
      · intro h
        suffices hl : ∀ m, vbeqPairs l m = true → l = m by simp [hl m h]
        clear h m
        induction l with
        | nil => intro m hm; cases m with
          | nil => rfl
          | cons y ys => simp [vbeqPairs] at hm
        | cons x xs ihx =>
          intro m hm
          cases m with
          | nil => cases x; simp [vbeqPairs] at hm
          | cons y ys =>
            cases x with
            | mk k v =>
              cases y with
              | mk k2 v2 =>
                simp only [vbeqPairs, Bool.and_eq_true] at hm
                have hk : k = k2 := by
                  have := hm.1.1; simpa using this
                have hv : v = v2 := (ih (k, v) (by simp) v2).mp hm.1.2
                have h2 : xs = ys := ihx (fun p hp b => ih p (by simp [hp]) b) ys hm.2
                rw [hk, hv, h2]
      · rintro rfl
        induction l with
        | nil => simp [vbeqPairs]
        | cons x xs ihx =>
          cases x with
          | mk k v =>
            simp only [vbeqPairs, Bool.and_eq_true]
            refine ⟨⟨by simp, (ih (k, v) (by simp) v).mpr rfl⟩,
              ihx (fun p hp b => ih p (by simp [hp]) b)⟩

instance : DecidableEq Val :=
  fun a b => decidable_of_iff (vbeq a b = true) (vbeq_iff a b)


/-- Python exceptions raised by the reservation engine, by site. -/
inductive Err : Type where
  | noResourceExn : String → Err   -- resource.NoResourceExn
  | notSolvable : String → Err     -- resource.NotSolvable
  | runtimeError : String → Err    -- Python RuntimeError
  | keyError : String → Err        -- Python KeyError (dict.pop of a missing key)
  | attributeError : String → Err  -- Python AttributeError
  | typeError : String → Err       -- Python TypeError
  | validationError : String → Err -- schema.ValidationError
  | assertionError : Err           -- Python assert failure
  deriving DecidableEq, Repr

/-- Inner loop of `search_in_permutations` (resource.py, `solve`): try each
candidate value of the current slot in list order, skipping values already
committed, returning the first full-length assignment found; `k` is the
recursive call on the remaining slots. -/
def tryVals (n : Nat) (k : List Nat → Option (List Nat)) (fixed : List Nat) :
    List Nat → Option (List Nat)
  | [] => none
  | v :: vs =>
    if v ∈ fixed then tryVals n k fixed vs
    else
      let l := fixed ++ [v]
      if l.length = n then some l
      else
        match k l with
        | some r => some r
        | none => tryVals n k fixed vs

/-- `search_in_permutations` of resource.py `solve`, with the enclosing
`all_matches` represented by its length `n` and the slots still to fill. -/
def search_in_permutations (n : Nat) : List (List Nat) → List Nat → Option (List Nat)
  | [], _fixed => none
  | cands :: rest, fixed => tryVals n (search_in_permutations n rest) fixed cands

/-- `solve(all_matches)` of resource.py: depth-first backtracking search for a
system of distinct representatives; `RuntimeError` on an empty input,
`NotSolvable` when the search exhausts (`if not solution` also covers a falsy
empty solution, unreachable for non-empty input). -/
def solve (all_matches : List (List Nat)) : Except Err (List Nat) :=
  if all_matches.isEmpty then
    .error (.runtimeError "Cannot solve: no candidates")
  else
    match search_in_permutations all_matches.length all_matches [] with
    | some solution =>
        if solution.isEmpty then
          .error (.notSolvable "The requested resource requirements are not solvable")
        else .ok solution
    | none => .error (.notSolvable "The requested resource requirements are not solvable")

/-- An assignment `a` is a system of distinct representatives for the
candidate lists `L`: same length, pairwise-distinct entries, and the i-th
entry drawn from `L[i]`. -/
def IsSDR (L : List (List Nat)) (a : List Nat) : Prop :=
  a.length = L.length ∧ a.Nodup ∧ ∀ i, i < L.length → a.getD i 0 ∈ L.getD i []

instance (L : List (List Nat)) (a : List Nat) : Decidable (IsSDR L a) := by
  unfold IsSDR
  exact inferInstance

example : solve [[0,1,2],[0],[0,2]] = .ok [1,0,2] := rfl
example : solve [[0],[0]] = .error (.notSolvable "The requested resource requirements are not solvable") := rfl
example : IsSDR [[0,1,2],[0],[0,2]] [1,0,2] := by decide

theorem tryVals_eq_some {n : Nat} {k : List Nat → Option (List Nat)}
    {fixed : List Nat} {cands r : List Nat}
    (h : tryVals n k fixed cands = some r) :
    ∃ v ∈ cands, v ∉ fixed ∧
      (((fixed ++ [v]).length = n ∧ r = fixed ++ [v]) ∨
       ((fixed ++ [v]).length ≠ n ∧ k (fixed ++ [v]) = some r)) := by
  induction cands with
  | nil => simp [tryVals] at h
  | cons v vs ih =>
    rw [tryVals] at h
    by_cases hv : v ∈ fixed
    · simp only [hv, if_true] at h
      obtain ⟨w, hw, hnf, hrest⟩ := ih h
      exact ⟨w, List.mem_cons_of_mem _ hw, hnf, hrest⟩
    · simp only [hv, if_false] at h
      by_cases hlen : (fixed ++ [v]).length = n
      · simp only [hlen, if_true] at h
        exact ⟨v, List.mem_cons_self _ _, hv, Or.inl ⟨hlen, (Option.some_inj.mp h).symm⟩⟩
      · simp only [hlen, if_false] at h
        cases hk : k (fixed ++ [v]) with
        | some r2 =>
          rw [hk] at h
          exact ⟨v, List.mem_cons_self _ _, hv,
            Or.inr ⟨hlen, by rw [hk, Option.some_inj.mp h]⟩⟩
        | none =>
          rw [hk] at h
          obtain ⟨w, hw, hnf, hrest⟩ := ih h
          exact ⟨w, List.mem_cons_of_mem _ hw, hnf, hrest⟩

theorem tryVals_eq_none {n : Nat} {k : List Nat → Option (List Nat)}
    {fixed : List Nat} {cands : List Nat}
    (h : tryVals n k fixed cands = none) :
    ∀ v ∈ cands, v ∉ fixed →
      ((fixed ++ [v]).length ≠ n ∧ k (fixed ++ [v]) = none) := by
  induction cands with
  | nil => intro v hv; simp at hv
  | cons c cs ih =>
    rw [tryVals] at h
    intro v hv hnf
    by_cases hc : c ∈ fixed
    · simp only [hc, if_true] at h
      rcases List.mem_cons.mp hv with rfl | hv2
      · exact absurd hc hnf
      · exact ih h v hv2 hnf
    · simp only [hc, if_false] at h
      by_cases hlen : (fixed ++ [c]).length = n
      · simp [hlen] at h
      · simp only [hlen, if_false] at h
        cases hk : k (fixed ++ [c]) with
        | some r2 => rw [hk] at h; simp at h
        | none =>
          rw [hk] at h
          rcases List.mem_cons.mp hv with rfl | hv2
          · exact ⟨hlen, hk⟩
          · exact ih h v hv2 hnf

theorem search_sound (n : Nat) :
    ∀ (rest : List (List Nat)) (fixed r : List Nat),
      n = fixed.length + rest.length →
      search_in_permutations n rest fixed = some r →
      ∃ ext, r = fixed ++ ext ∧ ext.length = rest.length ∧
        (∀ i, i < rest.length → ext.getD i 0 ∈ rest.getD i []) ∧
        (∀ x ∈ ext, x ∉ fixed) ∧ ext.Nodup := by
  intro rest
  induction rest with
  | nil => intro fixed r _ h; simp [search_in_permutations] at h
  | cons cands rest2 ih =>
    intro fixed r hn h
    rw [search_in_permutations] at h
    obtain ⟨v, hv, hvnf, hcase⟩ := tryVals_eq_some h
    rcases hcase with ⟨hlen, rfl⟩ | ⟨hlen, hrec⟩
    · -- returned right away: the current slot was the last one
      have hr2 : rest2.length = 0 := by
        simp only [List.length_append, List.length_cons, List.length_nil] at hlen hn
        omega
      refine ⟨[v], rfl, ?_, ?_, ?_, ?_⟩
      · simp [List.length_eq_zero.mp hr2]
      · intro i hi
        have hr0 : rest2 = [] := List.length_eq_zero.mp hr2
        subst hr0
        simp only [List.length_cons, List.length_nil] at hi
        have hi0 : i = 0 := by omega
        subst hi0
        simpa using hv
      · intro x hx
        simp only [List.mem_singleton] at hx
        subst hx; exact hvnf
      · simp
    · -- recursed into the remaining slots
      have hn2 : n = (fixed ++ [v]).length + rest2.length := by
        simp only [List.length_append, List.length_cons, List.length_nil] at hn ⊢
        omega
      obtain ⟨ext2, rfl, hl2, hmem2, hnf2, hnd2⟩ := ih (fixed ++ [v]) _ hn2 hrec
      refine ⟨v :: ext2, by simp, by simp [hl2], ?_, ?_, ?_⟩
      · intro i hi
        cases i with
        | zero => simpa using hv
        | succ j =>
          simp only [List.length_cons] at hi
          simpa using hmem2 j (by omega)
      · intro x hx
        rcases List.mem_cons.mp hx with rfl | hx2
        · exact hvnf
        · intro hc
          exact hnf2 x hx2 (by simp [hc])
      · refine List.nodup_cons.mpr ⟨?_, hnd2⟩
        intro hc
        exact hnf2 v hc (by simp)

theorem search_complete (n : Nat) :
    ∀ (rest : List (List Nat)) (fixed : List Nat),
      n = fixed.length + rest.length →
      rest ≠ [] →
      (∃ ext : List Nat, ext.length = rest.length ∧
        (∀ i, i < rest.length → ext.getD i 0 ∈ rest.getD i []) ∧
        (∀ x ∈ ext, x ∉ fixed) ∧ ext.Nodup) →
      search_in_permutations n rest fixed ≠ none := by
  intro rest
  induction rest with
  | nil => intro _ _ hne _; exact absurd rfl hne
  | cons cands rest2 ih =>
    intro fixed hn _ hex hnone
    obtain ⟨ext, hlext, hmem, hnf, hnd⟩ := hex
    cases ext with
    | nil => simp at hlext
    | cons v ext2 =>
      rw [search_in_permutations] at hnone
      have hv : v ∈ cands := by simpa using hmem 0 (by simp)
      have hvnf : v ∉ fixed := hnf v (by simp)
      obtain ⟨hlen, hrec⟩ := tryVals_eq_none hnone v hv hvnf
      cases rest2 with
      | nil =>
        apply hlen
        simp only [List.length_append, List.length_cons, List.length_nil] at hn ⊢
        omega
      | cons c3 rest3 =>
        refine ih (fixed ++ [v]) ?_ (by simp) ?_ hrec
        · simp only [List.length_append, List.length_cons, List.length_nil] at hn ⊢
          omega
        · refine ⟨ext2, by simpa using hlext, ?_, ?_, (List.nodup_cons.mp hnd).2⟩
          · intro i hi
            simpa using hmem (i + 1) (by simpa using hi)
          · intro x hx hc
            rcases List.mem_append.mp hc with hc1 | hc2
            · exact hnf x (by simp [hx]) hc1
            · have : x = v := by simpa using hc2
              exact (List.nodup_cons.mp hnd).1 (this ▸ hx)

theorem solve_ok_of_sdr {L : List (List Nat)} (hne : L ≠ [])
    (hex : ∃ a, IsSDR L a) :
    ∃ r, solve L = .ok r ∧ IsSDR L r := by
  have hLe : L.isEmpty = false := by
    cases L with
    | nil => exact absurd rfl hne
    | cons x xs => rfl
  obtain ⟨a, hal, hand, hamem⟩ := hex
  have hs : search_in_permutations L.length L [] ≠ none := by
    apply search_complete L.length L [] (by simp) hne
    exact ⟨a, hal, fun i hi => hamem i hi, by simp, hand⟩
  cases hsv : search_in_permutations L.length L [] with
  | none => exact absurd hsv hs
  | some r =>
    obtain ⟨ext, hr, hlen, hmem, _, hnd⟩ :=
      search_sound L.length L [] r (by simp) hsv
    rw [List.nil_append] at hr
    subst hr
    have hrne : r ≠ [] := by
      cases L with
      | nil => exact absurd rfl hne
      | cons x xs =>
        intro hc
        rw [hc] at hlen
        simp at hlen
    refine ⟨r, ?_, hlen, hnd, hmem⟩
    simp [solve, hLe, hsv, hrne]

theorem solve_err_of_no_sdr {L : List (List Nat)} (hne : L ≠ [])
    (hno : ¬∃ a, IsSDR L a) :
    solve L = .error (.notSolvable "The requested resource requirements are not solvable") := by
  have hLe : L.isEmpty = false := by
    cases L with
    | nil => exact absurd rfl hne
    | cons x xs => rfl
  cases hsv : search_in_permutations L.length L [] with
  | none => simp [solve, hLe, hsv]
  | some r =>
    exfalso
    obtain ⟨ext, hr, hlen, hmem, _, hnd⟩ :=
      search_sound L.length L [] r (by simp) hsv
    exact hno ⟨ext, hlen, hnd, hmem⟩

theorem solve_ok_isSDR {L : List (List Nat)} {r : List Nat}
    (h : solve L = .ok r) : IsSDR L r := by
  by_cases hne : L = []
  · subst hne; simp [solve] at h
  · have hLe : L.isEmpty = false := by
      cases L with
      | nil => exact absurd rfl hne
      | cons x xs => rfl
    cases hsv : search_in_permutations L.length L [] with
    | none => simp [solve, hLe, hsv] at h
    | some s =>
      obtain ⟨ext, hr, hlen, hmem, _, hnd⟩ :=
        search_sound L.length L [] s (by simp) hsv
      rw [List.nil_append] at hr
      subst hr
      by_cases hse : s = []
      · simp [solve, hLe, hsv, hse] at h
      · have hsr : s = r := by simpa [solve, hLe, hsv, hse] using h
        subst hsr
        exact ⟨hlen, hnd, hmem⟩

/- ## Python value helpers used throughout resource.py -/

/-- The reserved-attribute key names of resource.py. -/
def HASH_KEY : String := "_hash"

def RESERVED_KEY : String := "_reserved_by"

def USED_KEY : String := "_used"

/-- Python truthiness `bool(v)` for the values we model. -/
def truthy : Val → Bool
  | .vstr s => !(s == "")
  | .vint n => !(n == 0)
  | .vbool b => b
  | .vnone => false
  | .vlist l => !l.isEmpty
  | .vdict d => !d.isEmpty

/-- Python `d.get(key)` (default `None`): the value stored under `key`, or
`None` when the key is absent.  The source only calls `.get` on dicts; a
non-dict receiver is mapped to `None`. -/
def pyGet : Val → String → Val
  | .vdict kvs, k =>
    match kvs.find? (fun p => p.1 == k) with
    | some p => p.2
    | none => .vnone
  | _, _ => .vnone

/-- Python `d[key] = v` on a dict: overwrite in place if the key exists,
else append it in insertion order. -/
def dictSet (d : Val) (k : String) (v : Val) : Val :=
  match d with
  | .vdict kvs =>
    if kvs.any (fun p => p.1 == k) then
      .vdict (kvs.map (fun p => if p.1 == k then (p.1, v) else p))
    else
      .vdict (kvs ++ [(k, v)])
  | x => x

/-- Python `d.pop(key)` on a dict, ignoring the returned value (the key is
present at every call site we model). -/
def dictPop (d : Val) (k : String) : Val :=
  match d with
  | .vdict kvs => .vdict (kvs.filter (fun p => !(p.1 == k)))
  | x => x

/-- Python `key in d` on a dict. -/
def dictHasKey (d : Val) (k : String) : Bool :=
  match d with
  | .vdict kvs => kvs.any (fun p => p.1 == k)
  | _ => false

/-- A `Resources` dict: kind name mapped to the ordered list of resource
items of that kind (resource.py `class Resources(dict)`). -/
abbrev ResMap : Type := List (String × List Val)

/-- Python `self.get(key, [])` on a `Resources` dict. -/
def lookupD (m : ResMap) (k : String) : List Val :=
  ((m.find? (fun p => p.1 == k)).map Prod.snd).getD []

/-- Whether the `Resources` dict has an entry for kind `k`. -/
def hasKind (m : ResMap) (k : String) : Bool :=
  m.any (fun p => p.1 == k)

/-- Overwrite the list stored for kind `k` (no-op when `k` is absent,
mirroring in-place mutation of the list object aliased by `self[key]`). -/
def setKind (m : ResMap) (k : String) (l : List Val) : ResMap :=
  m.map (fun p => if p.1 == k then (p.1, l) else p)

/-- Python `self.pop(key)` on a `Resources` dict, key known present. -/
def eraseKind (m : ResMap) (k : String) : ResMap :=
  m.filter (fun p => !(p.1 == k))

/- ## item_matches (resource.py) with its util.py helpers -/

/-- `util.is_dict` (util.py is not in the sources; trivially
`isinstance(x, dict)`). -/
def is_dict : Val → Bool
  | .vdict _ => true
  | _ => false

/-- `util.is_list` (util.py is not in the sources; `isinstance(x, (list, tuple))`). -/
def is_list : Val → Bool
  | .vlist _ => true
  | _ => false

/-- The Python runtime type of a modelled value, as compared by
`util.list_validate_same_elem_type`. -/
inductive PyType : Type where
  | tstr | tint | tbool | tnone | tlist | tdict
  deriving DecidableEq, Repr

def pyTypeOf : Val → PyType
  | .vstr _ => .tstr
  | .vint _ => .tint
  | .vbool _ => .tbool
  | .vnone => .tnone
  | .vlist _ => .tlist
  | .vdict _ => .tdict

/-- Outcome of `util.list_validate_same_elem_type`. -/
inductive ElemTypes : Type where
  | empty | uniform (t : PyType) | mixed
  deriving DecidableEq, Repr

/-- Modelled from the spec: util.py is not in the sources.  The matcher
compares "element-wise when elements are structured, unordered-membership
when elements are scalar", over the concatenation `wanted_item + item`, so
the helper reports the common element type of a list (`empty` for an empty
list).  The spec gives no meaning to a mixed-type list (the real helper
refuses it); we report `mixed` and the matcher treats it as no match. -/
def elemTypes : List Val → ElemTypes
  | [] => .empty
  | x :: xs =>
    if xs.all (fun y => pyTypeOf y = pyTypeOf x) then .uniform (pyTypeOf x)
    else .mixed

/-- Modelled from the spec: `util.empty_instance_type` — the padding value
used by element-wise list comparison, an empty dict for dict elements and an
empty list otherwise (only structured types reach it). -/
def empty_instance : PyType → Val
  | .tdict => .vdict []
  | _ => .vlist []

mutual

/-- Computable structural size of a value (the harness sizeOf of a nested
inductive has no executable code). -/
def vsize : Val → Nat
  | .vstr _ => 1
  | .vint _ => 1
  | .vbool _ => 1
  | .vnone => 1
  | .vlist l => 1 + vsizeList l
  | .vdict d => 1 + vsizePairs d

def vsizeList : List Val → Nat
  | [] => 1
  | x :: xs => 1 + vsize x + vsizeList xs

def vsizePairs : List (String × Val) → Nat
  | [] => 1
  | p :: xs => 1 + vsize p.2 + vsizePairs xs

end

theorem vsize_pos (v : Val) : 1 ≤ vsize v := by
  cases v <;> simp [vsize]

theorem vsizeList_pos (l : List Val) : 1 ≤ vsizeList l := by
  cases l <;> simp [vsizeList] <;> omega

theorem vsizePairs_pos (l : List (String × Val)) : 1 ≤ vsizePairs l := by
  cases l <;> simp [vsizePairs] <;> omega

theorem vsize_mem_pairs : ∀ {l : List (String × Val)} {p : String × Val},
    p ∈ l → vsize p.2 < vsizePairs l := by
  intro l
  induction l with
  | nil => intro p hp; simp at hp
  | cons x xs ih =>
    intro p hp
    rcases List.mem_cons.mp hp with rfl | hp2
    · simp only [vsizePairs]
      have := vsizePairs_pos xs
      omega
    · have := ih hp2
      simp only [vsizePairs]
      omega

theorem vsize_mem_list : ∀ {l : List Val} {v : Val},
    v ∈ l → vsize v < vsizeList l := by
  intro l
  induction l with
  | nil => intro v hv; simp at hv
  | cons x xs ih =>
    intro v hv
    rcases List.mem_cons.mp hv with rfl | hv2
    · simp only [vsizeList]
      have := vsizeList_pos xs
      omega
    · have := ih hv2
      simp only [vsizeList]
      omega

theorem vsize_pyGet_lt (kvs : List (String × Val)) (k : String) :
    vsize (pyGet (Val.vdict kvs) k) < vsize (Val.vdict kvs) := by
  rw [pyGet]
  cases hf : kvs.find? (fun p => p.1 == k) with
  | none =>
    simp only [vsize]
    have := vsizePairs_pos kvs
    omega
  | some p =>
    have hm : p ∈ kvs := List.mem_of_find?_eq_some hf
    have h1 := vsize_mem_pairs hm
    simp only [vsize]
    omega

theorem vsize_getD_lt : ∀ (l : List Val) (i : Nat) (d : Val), i < l.length →
    vsize (l.getD i d) < vsizeList l
  | x :: xs, 0, d, _ => by
    simp only [List.getD_cons_zero, vsizeList]
    have := vsizeList_pos xs
    omega
  | x :: xs, i + 1, d, h => by
    simp only [List.getD_cons_succ, vsizeList]
    have := vsize_getD_lt xs i d (by simpa using h)
    omega

theorem vsize_getD_le : ∀ (l : List Val) (i : Nat) (d : Val), vsize d ≤ 2 →
    vsize (l.getD i d) ≤ 1 + vsizeList l
  | [], i, d, hd => by
    rw [List.getD_nil]
    simp only [vsizeList]
    omega
  | x :: xs, 0, d, _ => by
    simp only [List.getD_cons_zero, vsizeList]
    omega
  | x :: xs, i + 1, d, hd => by
    simp only [List.getD_cons_succ, vsizeList]
    have := vsize_getD_le xs i d hd
    omega

theorem vsize_empty_instance (t : PyType) : vsize (empty_instance t) ≤ 2 := by
  cases t <;> simp [empty_instance, vsize, vsizeList, vsizePairs]

/-- One step of `item_matches` with explicit recursion fuel (the fuel is
only a totality device: `imFuel_congr` shows any two sufficient fuels give
the same answer, and `item_matches` applies an always-sufficient amount). -/
def imFuel : Nat → Val → Val → Bool
  | 0, _, _ => false
  | n + 1, item, wanted =>
    match item, wanted with
    | .vdict ikvs, .vdict wkvs =>
      wkvs.all (fun p => imFuel n (pyGet (.vdict ikvs) p.1) p.2)
    | _, .vdict _ => false
    | .vlist il, .vlist wl =>
      (match elemTypes (wl ++ il) with
       | .empty => true
       | .mixed => false
       | .uniform t =>
         if t = PyType.tdict ∨ t = PyType.tlist then
           (List.range (max wl.length il.length)).all (fun i =>
             imFuel n (il.getD i (empty_instance t)) (wl.getD i (empty_instance t)))
         else
           wl.all (fun wv => il.any (fun iv => vbeq iv wv)))
    | _, .vlist _ => false
    | i, w => vbeq i w

/-- `item_matches(item, wanted_item)` of resource.py (the `ignore_keys`
parameter is `None` at every call site in the sources and is omitted):
a wanted dict requires the item to be a dict each of whose wanted keys
recursively matches (`item.get(key)` is `None` for an absent key); a wanted
list requires an item list whose elements are compared element-wise with
empty-instance padding when the common element type is structured, and by
unordered membership when it is scalar; anything else is Python `==`. -/
def item_matches (item wanted : Val) : Bool :=
  imFuel (vsize item + vsize wanted + 1) item wanted

theorem all_congr_mem {α : Type} (l : List α) (f g : α → Bool)
    (h : ∀ x ∈ l, f x = g x) : l.all f = l.all g := by
  induction l with
  | nil => rfl
  | cons x xs ih =>
    simp only [List.all_cons]
    rw [h x (by simp), ih (fun y hy => h y (by simp [hy]))]

theorem imFuel_congr : ∀ (k n m : Nat) (item wanted : Val),
    vsize item + vsize wanted ≤ k → k ≤ n → k ≤ m →
    imFuel n item wanted = imFuel m item wanted := by
  intro k
  induction k with
  | zero =>
    intro n m item wanted h _ _
    exfalso
    have := vsize_pos item
    have := vsize_pos wanted
    omega
  | succ k ih =>
    intro n m item wanted hsz hn hm
    obtain ⟨n2, rfl⟩ : ∃ n2, n = n2 + 1 := ⟨n - 1, by omega⟩
    obtain ⟨m2, rfl⟩ : ∃ m2, m = m2 + 1 := ⟨m - 1, by omega⟩
    have hn2 : k ≤ n2 := by omega
    have hm2 : k ≤ m2 := by omega
    cases item <;> cases wanted <;> simp only [imFuel]
    case vdict.vdict ikvs wkvs =>
      apply all_congr_mem
      intro p hp
      have h1 := vsize_pyGet_lt ikvs p.1
      have h2 := vsize_mem_pairs hp
      simp only [vsize] at hsz h1
      exact ih n2 m2 _ _ (by omega) hn2 hm2
    case vlist.vlist il wl =>
      cases elemTypes (wl ++ il) with
      | empty => rfl
      | mixed => rfl
      | uniform t =>
        by_cases ht : t = PyType.tdict ∨ t = PyType.tlist
        · simp only [ht, if_true]
          apply all_congr_mem
          intro i hi
          have hilt : i < max wl.length il.length := List.mem_range.mp hi
          have hd := vsize_empty_instance t
          simp only [vsize] at hsz
          rcases Nat.lt_or_ge i il.length with hlt | hge
          · have h1 := vsize_getD_lt il i (empty_instance t) hlt
            have h2 := vsize_getD_le wl i (empty_instance t) hd
            exact ih n2 m2 _ _ (by omega) hn2 hm2
          · have hlt2 : i < wl.length := by omega
            have h1 := vsize_getD_le il i (empty_instance t) hd
            have h2 := vsize_getD_lt wl i (empty_instance t) hlt2
            exact ih n2 m2 _ _ (by omega) hn2 hm2
        · simp only [ht, if_false]


theorem item_matches_dict_notdict {item : Val} (h : is_dict item = false)
    (wkvs : List (String × Val)) : item_matches item (.vdict wkvs) = false := by
  cases item <;> simp [is_dict] at h ⊢ <;> rfl

theorem item_matches_dict (ikvs wkvs : List (String × Val)) :
    item_matches (.vdict ikvs) (.vdict wkvs) =
      wkvs.all (fun p => item_matches (pyGet (.vdict ikvs) p.1) p.2) := by
  rw [item_matches]
  rw [imFuel]
  apply all_congr_mem
  intro p hp
  have h1 := vsize_pyGet_lt ikvs p.1
  have h2 := vsize_mem_pairs hp
  rw [item_matches]
  apply imFuel_congr (vsize (pyGet (Val.vdict ikvs) p.1) + vsize p.2 + 1)
  · omega
  · simp only [vsize] at h1 h2 ⊢
    omega
  · omega

example : item_matches
    (.vdict [("type", .vstr "sysmo"), ("band", .vstr "GSM-1800")])
    (.vdict [("type", .vstr "sysmo")]) = true := by decide

example : item_matches
    (.vdict [("type", .vstr "sysmo"), ("band", .vstr "GSM-1800")])
    (.vdict [("type", .vstr "sysmo"), ("band", .vstr "GSM-900")]) = false := by decide

example : item_matches (.vlist [.vint 1, .vint 2, .vint 3]) (.vlist [.vint 3, .vint 1]) = true := by decide

example : item_matches (.vlist [.vint 1, .vint 2]) (.vlist [.vint 3]) = false := by decide

example : item_matches (.vdict [("a", .vint 1)]) (.vdict []) = true := by decide

example : item_matches (.vdict [("a", .vdict [("b", .vint 1), ("c", .vint 2)])]) (.vdict [("a", .vdict [("c", .vint 2)])]) = true := by decide

theorem item_matches_list_notlist {item : Val} (h : is_list item = false)
    (wl : List Val) : item_matches item (.vlist wl) = false := by
  cases item <;> simp [is_list] at h ⊢ <;> rfl

theorem item_matches_list_empty {il wl : List Val}
    (h : elemTypes (wl ++ il) = .empty) :
    item_matches (.vlist il) (.vlist wl) = true := by
  rw [item_matches, imFuel]
  simp only [h]

theorem item_matches_list_mixed {il wl : List Val}
    (h : elemTypes (wl ++ il) = .mixed) :
    item_matches (.vlist il) (.vlist wl) = false := by
  rw [item_matches, imFuel]
  simp only [h]

theorem item_matches_list_scalar {il wl : List Val} {t : PyType}
    (h : elemTypes (wl ++ il) = .uniform t)
    (ht : ¬(t = PyType.tdict ∨ t = PyType.tlist)) :
    item_matches (.vlist il) (.vlist wl) =
      wl.all (fun wv => il.any (fun iv => vbeq iv wv)) := by
  rw [item_matches, imFuel]
  simp only [h, ht, if_false]

theorem item_matches_list_structured {il wl : List Val} {t : PyType}
    (h : elemTypes (wl ++ il) = .uniform t)
    (ht : t = PyType.tdict ∨ t = PyType.tlist) :
    item_matches (.vlist il) (.vlist wl) =
      (List.range (max wl.length il.length)).all (fun i =>
        item_matches (il.getD i (empty_instance t)) (wl.getD i (empty_instance t))) := by
  rw [item_matches, imFuel]
  simp only [h, ht, if_true]
  apply all_congr_mem
  intro i hi
  have hilt : i < max wl.length il.length := List.mem_range.mp hi
  have hd := vsize_empty_instance t
  rw [item_matches]
  rcases Nat.lt_or_ge i il.length with hlt | hge
  · have h1 := vsize_getD_lt il i (empty_instance t) hlt
    have h2 := vsize_getD_le wl i (empty_instance t) hd
    apply imFuel_congr
        (vsize (il.getD i (empty_instance t)) + vsize (wl.getD i (empty_instance t)) + 1)
    · omega
    · simp only [vsize]
      omega
    · omega
  · have hlt2 : i < wl.length := by omega
    have h1 := vsize_getD_le il i (empty_instance t) hd
    have h2 := vsize_getD_lt wl i (empty_instance t) hlt2
    apply imFuel_congr
        (vsize (il.getD i (empty_instance t)) + vsize (wl.getD i (empty_instance t)) + 1)
    · omega
    · simp only [vsize]
      omega
    · omega

theorem item_matches_scalar {item w : Val} (hd : is_dict w = false)
    (hl : is_list w = false) : item_matches item w = vbeq item w := by
  cases w <;> simp [is_dict, is_list] at hd hl ⊢ <;> cases item <;> rfl

/- ## Resources.find (resource.py) -/

/-- Code-point comparison of char lists (Python string `<=`,
restricted to the plain-ASCII kind names that occur here). -/
def charsLe : List Char → List Char → Bool
  | [], _ => true
  | _ :: _, [] => false
  | a :: as, b :: bs =>
    if a.toNat < b.toNat then true
    else if b.toNat < a.toNat then false
    else charsLe as bs

def strLe (a b : String) : Bool := charsLe a.data b.data

def insertKeyed (kv : String × List Val) : ResMap → ResMap
  | [] => [kv]
  | x :: xs => if strLe kv.1 x.1 then kv :: x :: xs else x :: insertKeyed kv xs

/-- `sorted(want.items())` of Resources.find: the want dict's entries in
ascending key order (keys are unique, so comparison never reaches the
values). -/
def sortByKey : ResMap → ResMap
  | [] => []
  | kv :: rest => insertKeyed kv (sortByKey rest)

theorem insertKeyed_perm (kv : String × List Val) (l : ResMap) :
    List.Perm (insertKeyed kv l) (kv :: l) := by
  induction l with
  | nil => simp [insertKeyed]
  | cons x xs ih =>
    rw [insertKeyed]
    by_cases h : strLe kv.1 x.1
    · simp [h]
    · simp only [h, if_false]
      exact (ih.cons x).trans (List.Perm.swap kv x xs)

theorem sortByKey_perm (m : ResMap) : List.Perm (sortByKey m) m := by
  induction m with
  | nil => simp [sortByKey]
  | cons kv rest ih =>
    rw [sortByKey]
    exact (insertKeyed_perm kv (sortByKey rest)).trans (ih.cons kv)

/-- The inner candidate scan of Resources.find: indices `i` of `my_list`
whose item is not skipped (`skip_if_marked` attribute falsy or no skip
requested) and `item_matches` the wanted constraint. -/
def match_indices (my_list : List Val) (skip : Option String) (want_item : Val) :
    List Nat :=
  (List.range my_list.length).filter (fun i =>
    let my_item := my_list.getD i .vnone
    (match skip with
     | some key => !truthy (pyGet my_item key)
     | none => true) && item_matches my_item want_item)

/-- Result of collecting the per-want-item candidate lists: either every
wanted item had at least one candidate, or some wanted item (returned for
the error message) had none. -/
inductive AllMatches : Type where
  | missing : Val → AllMatches
  | built : List (List Nat) → AllMatches
  deriving DecidableEq, Repr

def build_all_matches (my_list : List Val) (skip : Option String) :
    List Val → AllMatches
  | [] => .built []
  | w :: ws =>
    let iml := match_indices my_list skip w
    if iml.isEmpty then .missing w
    else
      match build_all_matches my_list skip ws with
      | .missing w2 => .missing w2
      | .built rest => .built (iml :: rest)

/-- The per-kind body of Resources.find, returning the solver's chosen
candidate indices: `NoResourceExn` when a wanted item has no candidate and
`raise_if_missing` is set, the empty marker list when it has none and
`raise_if_missing` is unset or when the want list itself is empty, and
otherwise the `solve` solution, with `NotSolvable` caught and re-raised
as `NoResourceExn` naming the request. -/
def find_kind_indices (my_list : List Val) (want_list : List Val)
    (skip : Option String) (raise_if_missing : Bool) (key : String) :
    Except Err (List Nat) :=
  match build_all_matches my_list skip want_list with
  | .missing _ =>
    if raise_if_missing then
      .error (.noResourceExn ("No matching resource available for " ++ key))
    else .ok []
  | .built all_matches =>
    if all_matches.isEmpty then .ok []
    else
      match solve all_matches with
      | .ok solution => .ok solution
      | .error (.notSolvable _) =>
        .error (.noResourceExn ("Could not resolve request to reserve resources: " ++ key))
      | .error e => .error e

/-- The per-kind body of Resources.find returning the picked items
(`picked = [my_list[i] for i in solution]`). -/
def find_kind (my_list : List Val) (want_list : List Val) (skip : Option String)
    (raise_if_missing : Bool) (key : String) : Except Err (List Val) :=
  match find_kind_indices my_list want_list skip raise_if_missing key with
  | .error e => .error e
  | .ok solution => .ok (solution.map (fun i => my_list.getD i .vnone))

def find_go (self : ResMap) (skip : Option String) (raise_if_missing : Bool) :
    ResMap → Except Err ResMap
  | [] => .ok []
  | (key, want_list) :: rest =>
    match find_kind (lookupD self key) want_list skip raise_if_missing key with
    | .error e => .error e
    | .ok picked =>
      match find_go self skip raise_if_missing rest with
      | .error e => .error e
      | .ok ms => .ok ((key, picked) :: ms)

/-- `Resources.find(for_origin, want, skip_if_marked, do_copy,
raise_if_missing, log_label)` of resource.py: process the want dict's kinds
in sorted key order, collecting the picked items per kind (logging and deep
copying do not affect the result and are not modelled; the `do_copy=False`
aliasing is recovered where needed through `find_kind_indices`). -/
def find (self want : ResMap) (skip : Option String) (raise_if_missing : Bool) :
    Except Err ResMap :=
  find_go self skip raise_if_missing (sortByKey want)


theorem solve_err_shape {L : List (List Nat)} {e : Err} (hne : L.isEmpty = false)
    (h : solve L = .error e) : ∃ m, e = .notSolvable m := by
  rw [solve, hne] at h
  simp only [Bool.false_eq_true, if_false] at h
  split at h
  · split at h
    · exact ⟨_, (Except.error.inj h).symm⟩
    · exact Except.noConfusion h
  · exact ⟨_, (Except.error.inj h).symm⟩

theorem find_kind_indices_err {my_list want_list : List Val} {skip : Option String}
    {rim : Bool} {key : String} {e : Err}
    (h : find_kind_indices my_list want_list skip rim key = .error e) :
    ∃ s, e = .noResourceExn s := by
  rw [find_kind_indices] at h
  split at h
  · split at h
    · exact ⟨_, (Except.error.inj h).symm⟩
    · exact Except.noConfusion h
  case _ all_matches hb =>
    split at h
    · exact Except.noConfusion h
    case _ hne =>
      split at h
      · exact Except.noConfusion h
      · exact ⟨_, (Except.error.inj h).symm⟩
      case _ e2 hnots hs =>
        obtain ⟨m, rfl⟩ := solve_err_shape (by simpa using hne) hs
        exact absurd rfl (hnots m)

theorem find_kind_err {my_list want_list : List Val} {skip : Option String}
    {rim : Bool} {key : String} {e : Err}
    (h : find_kind my_list want_list skip rim key = .error e) :
    ∃ s, e = .noResourceExn s := by
  rw [find_kind] at h
  split at h
  case _ e2 hi =>
    cases h
    exact find_kind_indices_err hi
  · exact Except.noConfusion h

theorem find_go_err {self : ResMap} {skip : Option String} {rim : Bool} :
    ∀ {want : ResMap} {e : Err}, find_go self skip rim want = .error e →
      ∃ s, e = .noResourceExn s := by
  intro want
  induction want with
  | nil => intro e h; rw [find_go] at h; exact Except.noConfusion h
  | cons kw rest ih =>
    intro e h
    obtain ⟨key, want_list⟩ := kw
    rw [find_go] at h
    split at h
    case _ e2 hk =>
      cases h
      exact find_kind_err hk
    case _ picked hk =>
      split at h
      case _ e2 hr =>
        cases h
        exact ih hr
      · exact Except.noConfusion h

/-- Every error escaping `Resources.find` is a `NoResourceExn`: in
particular the solver's `NotSolvable` never does. -/
theorem find_err {self want : ResMap} {skip : Option String} {rim : Bool} {e : Err}
    (h : find self want skip rim = .error e) : ∃ s, e = .noResourceExn s :=
  find_go_err h

theorem mem_match_indices {my_list : List Val} {skip : Option String}
    {w : Val} {i : Nat} (h : i ∈ match_indices my_list skip w) :
    i < my_list.length ∧
      (∀ key, skip = some key → truthy (pyGet (my_list.getD i .vnone) key) = false) ∧
      item_matches (my_list.getD i .vnone) w = true := by
  rw [match_indices] at h
  have hm := List.mem_filter.mp h
  have hlt : i < my_list.length := List.mem_range.mp hm.1
  have hp := hm.2
  simp only [Bool.and_eq_true] at hp
  refine ⟨hlt, ?_, hp.2⟩
  intro key hk
  subst hk
  have := hp.1
  simp only [Bool.not_eq_true'] at this
  exact this

theorem build_all_matches_slots {my_list : List Val} {skip : Option String} :
    ∀ {ws : List Val} {ls : List (List Nat)},
      build_all_matches my_list skip ws = .built ls →
      ∀ l ∈ ls, ∃ w ∈ ws, l = match_indices my_list skip w := by
  intro ws
  induction ws with
  | nil =>
    intro ls h l hl
    rw [build_all_matches] at h
    cases h
    simp at hl
  | cons w ws2 ih =>
    intro ls h l hl
    rw [build_all_matches] at h
    split at h
    · exact AllMatches.noConfusion h
    split at h
    · exact AllMatches.noConfusion h
    case _ rest hb =>
      cases h
      rcases List.mem_cons.mp hl with rfl | hl2
      · exact ⟨w, by simp, rfl⟩
      · obtain ⟨w2, hw2, hlw⟩ := ih hb l hl2
        exact ⟨w2, by simp [hw2], hlw⟩

theorem isSDR_mem_slot {L : List (List Nat)} {a : List Nat} (h : IsSDR L a) :
    ∀ x ∈ a, ∃ l ∈ L, x ∈ l := by
  obtain ⟨hlen, _, hmem⟩ := h
  intro x hx
  obtain ⟨i, hi, hxi⟩ := List.mem_iff_getElem.mp hx
  have hiL : i < L.length := by omega
  refine ⟨L.getD i [], ?_, ?_⟩
  · rw [List.getD_eq_getElem L [] hiL]
    exact List.getElem_mem hiL
  · have := hmem i hiL
    rwa [List.getD_eq_getElem a 0 hi, hxi] at this

theorem find_kind_indices_ok_mem {my_list want_list : List Val}
    {skip : Option String} {rim : Bool} {key : String} {idxs : List Nat}
    (h : find_kind_indices my_list want_list skip rim key = .ok idxs) :
    ∀ i ∈ idxs, ∃ w ∈ want_list, i ∈ match_indices my_list skip w := by
  rw [find_kind_indices] at h
  split at h
  · split at h
    · exact Except.noConfusion h
    · cases h
      intro i hi
      simp at hi
  case _ all_matches hb =>
    split at h
    · cases h
      intro i hi
      simp at hi
    case _ hne =>
      split at h
      case _ s hs =>
        cases h
        intro i hi
        have hsdr := solve_ok_isSDR hs
        obtain ⟨l, hl, hil⟩ := isSDR_mem_slot hsdr i hi
        obtain ⟨w, hw, rfl⟩ := build_all_matches_slots hb l hl
        exact ⟨w, hw, hil⟩
      · exact Except.noConfusion h
      · exact Except.noConfusion h

theorem find_kind_ok_mem {my_list want_list : List Val} {skip : Option String}
    {rim : Bool} {key : String} {picked : List Val}
    (h : find_kind my_list want_list skip rim key = .ok picked) :
    ∀ v ∈ picked, v ∈ my_list := by
  rw [find_kind] at h
  split at h
  · exact Except.noConfusion h
  case _ idxs hi =>
    cases h
    intro v hv
    obtain ⟨i, hiid, rfl⟩ := List.mem_map.mp hv
    obtain ⟨w, _, him⟩ := find_kind_indices_ok_mem hi i hiid
    have hlt := (mem_match_indices him).1
    rw [List.getD_eq_getElem my_list .vnone hlt]
    exact List.getElem_mem hlt

/- ## Resources.drop / without (resource.py) -/

/-- The hash attribute of an item as the source reads it
(`item.get(HASH_KEY)`, `None` when absent). -/
def pyhash (v : Val) : Val := pyGet v HASH_KEY

def hashesOf (l : List Val) : List Val := l.map pyhash

/-- The hash multiset of one kind of a `Resources` dict. -/
def hashesAt (m : ResMap) (k : String) : List Val := hashesOf (lookupD m k)

/-- All items of a list carry a truthy `_hash` attribute. -/
def AllHashed (l : List Val) : Prop := ∀ it ∈ l, truthy (pyhash it) = true

/-- All item lists of a `Resources` dict carry truthy hashes. -/
def AllHashedMap (m : ResMap) : Prop := ∀ p ∈ m, AllHashed p.2

/-- The inner scan of `Resources.drop`: walk `my_list` checking each
scanned item is hashed, and remove the first item whose hash equals
`reserved_hash` (`None` when the scan completes without a match). -/
def removeFirstHash : List Val → Val → Except Err (Option (List Val))
  | [], _ => .ok none
  | it :: rest, h =>
    let mh := pyhash it
    if !truthy mh then
      .error (.runtimeError "Resources.drop() only works with hashed items")
    else if vbeq mh h then .ok (some rest)
    else
      match removeFirstHash rest h with
      | .error e => .error e
      | .ok none => .ok none
      | .ok (some l2) => .ok (some (it :: l2))

/-- The per-kind loop body of `Resources.drop` over the reserved items of
one kind: check the reserved item is hashed, scan-and-remove it from
`my_list`, and on a miss raise the not-found RuntimeError when
`fail_if_not_found` is set. -/
def dropList (fail_if_not_found : Bool) : List Val → List Val → Except Err (List Val)
  | my_list, [] => .ok my_list
  | my_list, r :: rs =>
    if !truthy (pyhash r) then
      .error (.runtimeError "Resources.drop() only works with hashed items")
    else
      match removeFirstHash my_list (pyhash r) with
      | .error e => .error e
      | .ok (some l2) => dropList fail_if_not_found l2 rs
      | .ok none =>
        if fail_if_not_found then
          .error (.runtimeError "Asked to drop resource from a pool, but the resource was not found")
        else dropList fail_if_not_found my_list rs

/-- The outer kind loop of `Resources.drop`: for each reserved kind,
remove its items from the receiver's list (`self.get(key) or []`), write
the shrunken list back, and `self.pop(key)` when it becomes empty — a
Python `KeyError` when the key is not there to pop.  The
`my_list is reserved_list` aliasing fast path of the source cannot arise
between distinct value-semantics dicts and is not modelled. -/
def drop_go (fail_if_not_found : Bool) : ResMap → ResMap → Except Err ResMap
  | self, [] => .ok self
  | self, (key, rlist) :: rest =>
    match dropList fail_if_not_found (lookupD self key) rlist with
    | .error e => .error e
    | .ok new_list =>
      let self2 := setKind self key new_list
      if new_list.isEmpty then
        if hasKind self2 key then drop_go fail_if_not_found (eraseKind self2 key) rest
        else .error (.keyError key)
      else drop_go fail_if_not_found self2 rest

/-- `Resources.drop(reserved, fail_if_not_found)` of resource.py.
`is_self` stands for the Python identity test `reserved is self`. -/
def Resources.drop (is_self : Bool) (fail_if_not_found : Bool)
    (self reserved : ResMap) : Except Err ResMap :=
  if is_self then
    .error (.runtimeError "Refusing to drop a list of resources from itself.")
  else drop_go fail_if_not_found self reserved

/-- `Resources.without(reserved)`: drop from a fresh copy (never the same
object, `fail_if_not_found` defaulted to true). -/
def without (self reserved : ResMap) : Except Err ResMap :=
  Resources.drop false true self reserved

theorem removeFirstHash_no_error {l : List Val} {h : Val} (hh : AllHashed l) :
    ∃ o, removeFirstHash l h = .ok o := by
  induction l with
  | nil => exact ⟨none, rfl⟩
  | cons it rest ih =>
    rw [removeFirstHash]
    have ht : truthy (pyhash it) = true := hh it (by simp)
    simp only [ht, Bool.not_true, Bool.false_eq_true, if_false]
    by_cases hb : vbeq (pyhash it) h
    · exact ⟨some rest, by simp [hb]⟩
    · simp only [hb, Bool.false_eq_true, if_false]
      obtain ⟨o, ho⟩ := ih (fun x hx => hh x (by simp [hx]))
      cases o with
      | none => exact ⟨none, by rw [ho]⟩
      | some l2 => exact ⟨some (it :: l2), by rw [ho]⟩


theorem removeFirstHash_some_hashes {h : Val} :
    ∀ {l l2 : List Val}, removeFirstHash l h = .ok (some l2) →
      hashesOf l2 = (hashesOf l).erase h := by
  intro l
  induction l with
  | nil => intro l2 hr; rw [removeFirstHash] at hr; cases hr
  | cons it rest ih =>
    intro l2 hr
    rw [removeFirstHash] at hr
    split at hr
    · exact Except.noConfusion hr
    case _ hht =>
      by_cases hb : vbeq (pyhash it) h
      · rw [if_pos hb] at hr
        cases hr
        have heq : pyhash it = h := (vbeq_iff _ _).mp hb
        simp only [hashesOf, List.map_cons, heq, List.erase_cons_head]
      · rw [if_neg hb] at hr
        split at hr
        · exact Except.noConfusion hr
        · simp at hr
        case _ l3 hrec =>
          cases hr
          have hprop : pyhash it ≠ h := fun hc => hb ((vbeq_iff _ _).mpr hc)
          have hne : ¬(pyhash it == h) = true := by simpa using hprop
          have hrec2 := ih hrec
          simp only [hashesOf, List.map_cons] at hrec2 ⊢
          rw [List.erase_cons_tail hne, hrec2]

theorem removeFirstHash_some_sublist {h : Val} :
    ∀ {l l2 : List Val}, removeFirstHash l h = .ok (some l2) → l2.Sublist l := by
  intro l
  induction l with
  | nil => intro l2 hr; rw [removeFirstHash] at hr; cases hr
  | cons it rest ih =>
    intro l2 hr
    rw [removeFirstHash] at hr
    split at hr
    · exact Except.noConfusion hr
    case _ hht =>
      by_cases hb : vbeq (pyhash it) h
      · rw [if_pos hb] at hr
        cases hr
        exact List.sublist_cons_self it rest
      · rw [if_neg hb] at hr
        split at hr
        · exact Except.noConfusion hr
        · simp at hr
        case _ l3 hrec =>
          cases hr
          exact List.Sublist.cons₂ it (ih hrec)

theorem removeFirstHash_none {h : Val} :
    ∀ {l : List Val}, removeFirstHash l h = .ok none →
      ∀ x ∈ l, ¬(pyhash x = h) := by
  intro l
  induction l with
  | nil => intro _ x hx; simp at hx
  | cons it rest ih =>
    intro hr x hx
    rw [removeFirstHash] at hr
    split at hr
    · exact Except.noConfusion hr
    case _ hht =>
      by_cases hb : vbeq (pyhash it) h
      · rw [if_pos hb] at hr; cases hr
      · rw [if_neg hb] at hr
        split at hr
        · exact Except.noConfusion hr
        · case _ hrec =>
            rcases List.mem_cons.mp hx with rfl | hx2
            · intro hc
              exact hb ((vbeq_iff _ _).mpr hc)
            · exact ih hrec x hx2
        · simp at hr

theorem removeFirstHash_mem {h : Val} :
    ∀ {l : List Val}, AllHashed l → h ∈ hashesOf l →
      ∃ l2, removeFirstHash l h = .ok (some l2) := by
  intro l
  induction l with
  | nil => intro _ hm; simp [hashesOf] at hm
  | cons it rest ih =>
    intro hh hm
    rw [removeFirstHash]
    have ht : truthy (pyhash it) = true := hh it (by simp)
    simp only [ht, Bool.not_true, Bool.false_eq_true, if_false]
    by_cases hb : vbeq (pyhash it) h
    · exact ⟨rest, by simp [hb]⟩
    · simp only [hb, Bool.false_eq_true, if_false]
      have hne : ¬(pyhash it = h) := fun hc => hb ((vbeq_iff _ _).mpr hc)
      have hm2 : h ∈ hashesOf rest := by
        simp only [hashesOf, List.map_cons, List.mem_cons] at hm
        rcases hm with hc | hm2
        · exact absurd hc.symm hne
        · exact hm2
      obtain ⟨l2, hl2⟩ := ih (fun x hx => hh x (by simp [hx])) hm2
      exact ⟨it :: l2, by rw [hl2]⟩

theorem removeFirstHash_not_mem {h : Val} :
    ∀ {l : List Val}, AllHashed l → h ∉ hashesOf l →
      removeFirstHash l h = .ok none := by
  intro l
  induction l with
  | nil => intro _ _; rfl
  | cons it rest ih =>
    intro hh hm
    rw [removeFirstHash]
    have ht : truthy (pyhash it) = true := hh it (by simp)
    simp only [ht, Bool.not_true, Bool.false_eq_true, if_false]
    have hne : vbeq (pyhash it) h = false := by
      by_contra hc
      have : vbeq (pyhash it) h = true := by
        cases hvb : vbeq (pyhash it) h
        · exact absurd hvb hc
        · rfl
      exact hm (by simp [hashesOf, (vbeq_iff _ _).mp this])
    simp only [hne, Bool.false_eq_true, if_false]
    rw [ih (fun x hx => hh x (by simp [hx]))
      (fun hc => hm (by simp [hashesOf] at hc ⊢; exact Or.inr hc))]

theorem coe_erase_sub (l : List Val) (a : Val) :
    (↑(l.erase a) : Multiset Val) = ↑l - {a} := by
  rw [Multiset.sub_singleton]
  exact (Multiset.coe_erase l a).symm

theorem dropList_ok_sublist {fail : Bool} :
    ∀ {rs my l2 : List Val}, dropList fail my rs = .ok l2 → l2.Sublist my := by
  intro rs
  induction rs with
  | nil =>
    intro my l2 hd
    rw [dropList] at hd
    cases hd
    exact List.Sublist.refl _
  | cons r rs2 ih =>
    intro my l2 hd
    rw [dropList] at hd
    split at hd
    · exact Except.noConfusion hd
    split at hd
    · exact Except.noConfusion hd
    case _ l3 hrm =>
      exact (ih hd).trans (removeFirstHash_some_sublist hrm)
    case _ hrm =>
      split at hd
      · exact Except.noConfusion hd
      · exact ih hd

theorem dropList_ok_hashes :
    ∀ {rs my l2 : List Val}, AllHashed my → dropList true my rs = .ok l2 →
      (↑(hashesOf l2) : Multiset Val) = ↑(hashesOf my) - ↑(hashesOf rs) := by
  intro rs
  induction rs with
  | nil =>
    intro my l2 _ hd
    rw [dropList] at hd
    cases hd
    simp [hashesOf]
  | cons r rs2 ih =>
    intro my l2 hh hd
    rw [dropList] at hd
    split at hd
    · exact Except.noConfusion hd
    split at hd
    · exact Except.noConfusion hd
    case _ l3 hrm =>
      have hsub := removeFirstHash_some_sublist hrm
      have hh3 : AllHashed l3 := fun x hx => hh x (hsub.mem hx)
      have h3 := ih hh3 hd
      have herase := removeFirstHash_some_hashes hrm
      rw [h3, herase]
      have : (↑((hashesOf my).erase (pyhash r)) : Multiset Val) =
          ↑(hashesOf my) - {pyhash r} := coe_erase_sub _ _
      rw [this]
      have hcons : (↑(hashesOf (r :: rs2)) : Multiset Val) =
          {pyhash r} + ↑(hashesOf rs2) := by
        simp [hashesOf]
      rw [hcons]
      exact (tsub_add_eq_tsub_tsub _ _ _).symm
    case _ hrm =>
      split at hd
      · exact Except.noConfusion hd
      case _ hf => exact absurd rfl hf

theorem removeFirstHash_some_mem {h : Val} :
    ∀ {l l2 : List Val}, removeFirstHash l h = .ok (some l2) →
      h ∈ hashesOf l := by
  intro l
  induction l with
  | nil => intro l2 hr; rw [removeFirstHash] at hr; cases hr
  | cons it rest ih =>
    intro l2 hr
    rw [removeFirstHash] at hr
    split at hr
    · exact Except.noConfusion hr
    case _ hht =>
      by_cases hb : vbeq (pyhash it) h
      · have := (vbeq_iff _ _).mp hb
        simp [hashesOf, this]
      · rw [if_neg hb] at hr
        split at hr
        · exact Except.noConfusion hr
        · simp at hr
        case _ l4 hrec =>
          have := ih hrec
          simp only [hashesOf, List.map_cons, List.mem_cons]
          right
          simpa [hashesOf] using this

theorem dropList_ok_mem_hashes :
    ∀ {rs my l2 : List Val}, dropList true my rs = .ok l2 →
      ∀ r ∈ rs, pyhash r ∈ hashesOf my := by
  intro rs
  induction rs with
  | nil => intro my l2 _ r hr; simp at hr
  | cons r0 rs2 ih =>
    intro my l2 hd r hr
    rw [dropList] at hd
    split at hd
    · exact Except.noConfusion hd
    split at hd
    · exact Except.noConfusion hd
    case _ l3 hrm =>
      rcases List.mem_cons.mp hr with rfl | hr2
      · exact removeFirstHash_some_mem hrm
      · have := ih hd r hr2
        exact ((removeFirstHash_some_sublist hrm).map pyhash).mem this
    case _ hrm =>
      split at hd
      · exact Except.noConfusion hd
      case _ hf => exact absurd rfl hf

theorem dropList_ok_of_le :
    ∀ {rs my : List Val}, AllHashed my → AllHashed rs →
      (↑(hashesOf rs) : Multiset Val) ≤ ↑(hashesOf my) →
      ∃ l2, dropList true my rs = .ok l2 := by
  intro rs
  induction rs with
  | nil => intro my _ _ _; exact ⟨my, rfl⟩
  | cons r rs2 ih =>
    intro my hhm hhr hle
    rw [dropList]
    have ht : truthy (pyhash r) = true := hhr r (by simp)
    simp only [ht, Bool.not_true, Bool.false_eq_true, if_false]
    have hmem : pyhash r ∈ hashesOf my := by
      have hc : 0 < Multiset.count (pyhash r) (↑(hashesOf my) : Multiset Val) := by
        have h1 : 0 < Multiset.count (pyhash r) (↑(hashesOf (r :: rs2)) : Multiset Val) := by
          simp [hashesOf]
        exact lt_of_lt_of_le h1 (Multiset.le_iff_count.mp hle _)
      simpa using Multiset.count_pos.mp hc
    obtain ⟨l3, hl3⟩ := removeFirstHash_mem hhm hmem
    rw [hl3]
    have hsub := removeFirstHash_some_sublist hl3
    have hh3 : AllHashed l3 := fun x hx => hhm x (hsub.mem hx)
    have hle3 : (↑(hashesOf rs2) : Multiset Val) ≤ ↑(hashesOf l3) := by
      rw [removeFirstHash_some_hashes hl3]
      rw [Multiset.le_iff_count]
      intro a
      have hcnt := Multiset.le_iff_count.mp hle a
      rw [coe_erase_sub]
      by_cases ha : a = pyhash r
      · have h1 : Multiset.count a (↑(hashesOf (r :: rs2)) : Multiset Val) =
            Multiset.count a (↑(hashesOf rs2) : Multiset Val) + 1 := by
          simp [hashesOf, ha]
        rw [Multiset.count_sub, Multiset.count_singleton]
        rw [if_pos ha]
        omega
      · have h1 : Multiset.count a (↑(hashesOf (r :: rs2)) : Multiset Val) =
            Multiset.count a (↑(hashesOf rs2) : Multiset Val) := by
          simp [hashesOf, ha]
        rw [Multiset.count_sub, Multiset.count_singleton]
        simp only [if_neg ha]
        omega
    exact ih hh3 (fun x hx => hhr x (by simp [hx])) hle3

theorem dropList_dichotomy :
    ∀ {rs my : List Val}, AllHashed my → AllHashed rs →
      (∃ l2, dropList true my rs = .ok l2) ∨
        dropList true my rs =
          .error (.runtimeError "Asked to drop resource from a pool, but the resource was not found") := by
  intro rs
  induction rs with
  | nil => intro my _ _; exact Or.inl ⟨my, rfl⟩
  | cons r rs2 ih =>
    intro my hhm hhr
    rw [dropList]
    have ht : truthy (pyhash r) = true := hhr r (by simp)
    simp only [ht, Bool.not_true, Bool.false_eq_true, if_false]
    obtain ⟨o, ho⟩ := removeFirstHash_no_error (h := pyhash r) hhm
    rw [ho]
    cases o with
    | none => exact Or.inr (by simp)
    | some l3 =>
      have hsub := removeFirstHash_some_sublist ho
      have hh3 : AllHashed l3 := fun x hx => hhm x (hsub.mem hx)
      exact ih hh3 (fun x hx => hhr x (by simp [hx]))

theorem dropList_missing_err {rs my : List Val} (hhm : AllHashed my)
    (hhr : AllHashed rs) (hmiss : ∃ r ∈ rs, pyhash r ∉ hashesOf my) :
    dropList true my rs =
      .error (.runtimeError "Asked to drop resource from a pool, but the resource was not found") := by
  rcases dropList_dichotomy hhm hhr with ⟨l2, hl2⟩ | herr
  · obtain ⟨r, hr, hnm⟩ := hmiss
    exact absurd (dropList_ok_mem_hashes hl2 r hr) hnm
  · exact herr

def keysOf (m : ResMap) : List String := m.map Prod.fst

/-- The keys of a Python dict are unique; our association-list model of a
`Resources` dict carries this as a hypothesis where it matters. -/
def NodupKeys (m : ResMap) : Prop := (keysOf m).Nodup


theorem lookupD_cons (k1 : String) (l1 : List Val) (rest : ResMap) (k : String) :
    lookupD ((k1, l1) :: rest) k = if k1 = k then l1 else lookupD rest k := by
  rw [lookupD, List.find?_cons]
  by_cases hk : k1 = k
  · have hb : (k1 == k) = true := by simpa using hk
    rw [hb]
    simp [hk]
  · have hb : (k1 == k) = false := by simpa using hk
    rw [hb]
    simp [hk, lookupD]

theorem hasKind_cons (k1 : String) (l1 : List Val) (rest : ResMap) (k : String) :
    hasKind ((k1, l1) :: rest) k = if k1 = k then true else hasKind rest k := by
  rw [hasKind, List.any_cons]
  by_cases hk : k1 = k
  · have hb : (k1 == k) = true := by simpa using hk
    simp [hb, hk]
  · have hb : (k1 == k) = false := by simpa using hk
    simp [hb, hk, hasKind]

theorem setKind_cons (k1 : String) (l1 : List Val) (rest : ResMap) (k : String)
    (l : List Val) :
    setKind ((k1, l1) :: rest) k l =
      (if k1 = k then (k1, l) else (k1, l1)) :: setKind rest k l := by
  rw [setKind, List.map_cons]
  by_cases hk : k1 = k
  · have hb : (k1 == k) = true := by simpa using hk
    simp [hb, hk, setKind]
  · have hb : (k1 == k) = false := by simpa using hk
    simp [hb, hk, setKind]

theorem eraseKind_cons (k1 : String) (l1 : List Val) (rest : ResMap) (k : String) :
    eraseKind ((k1, l1) :: rest) k =
      if k1 = k then eraseKind rest k else (k1, l1) :: eraseKind rest k := by
  rw [eraseKind, List.filter_cons]
  by_cases hk : k1 = k
  · have hb : (k1 == k) = true := by simpa using hk
    simp [hb, hk, eraseKind]
  · have hb : (k1 == k) = false := by simpa using hk
    simp [hb, hk, eraseKind]

theorem lookupD_setKind_ne {m : ResMap} {k k2 : String} (h : k ≠ k2)
    (l : List Val) : lookupD (setKind m k l) k2 = lookupD m k2 := by
  induction m with
  | nil => rfl
  | cons p rest ih =>
    obtain ⟨k1, l1⟩ := p
    rw [setKind_cons]
    by_cases hk : k1 = k
    · subst hk
      rw [if_pos rfl, lookupD_cons, lookupD_cons, if_neg h, if_neg h]
      exact ih
    · rw [if_neg hk, lookupD_cons, lookupD_cons]
      by_cases hk2 : k1 = k2
      · rw [if_pos hk2, if_pos hk2]
      · rw [if_neg hk2, if_neg hk2]
        exact ih

theorem lookupD_setKind_self {m : ResMap} {k : String} (h : hasKind m k = true)
    (l : List Val) : lookupD (setKind m k l) k = l := by
  induction m with
  | nil => simp [hasKind] at h
  | cons p rest ih =>
    obtain ⟨k1, l1⟩ := p
    rw [setKind_cons]
    by_cases hk : k1 = k
    · subst hk
      rw [if_pos rfl, lookupD_cons, if_pos rfl]
    · rw [if_neg hk, lookupD_cons, if_neg hk]
      rw [hasKind_cons, if_neg hk] at h
      exact ih h

theorem lookupD_eraseKind_ne {m : ResMap} {k k2 : String} (h : k ≠ k2) :
    lookupD (eraseKind m k) k2 = lookupD m k2 := by
  induction m with
  | nil => rfl
  | cons p rest ih =>
    obtain ⟨k1, l1⟩ := p
    rw [eraseKind_cons]
    by_cases hk : k1 = k
    · subst hk
      rw [if_pos rfl, lookupD_cons, if_neg h]
      exact ih
    · rw [if_neg hk, lookupD_cons, lookupD_cons]
      by_cases hk2 : k1 = k2
      · rw [if_pos hk2, if_pos hk2]
      · rw [if_neg hk2, if_neg hk2]
        exact ih

theorem lookupD_eraseKind_self (m : ResMap) (k : String) :
    lookupD (eraseKind m k) k = [] := by
  induction m with
  | nil => rfl
  | cons p rest ih =>
    obtain ⟨k1, l1⟩ := p
    rw [eraseKind_cons]
    by_cases hk : k1 = k
    · rw [if_pos hk]
      exact ih
    · rw [if_neg hk, lookupD_cons, if_neg hk]
      exact ih

theorem hasKind_setKind (m : ResMap) (k : String) (l : List Val) (k2 : String) :
    hasKind (setKind m k l) k2 = hasKind m k2 := by
  induction m with
  | nil => rfl
  | cons p rest ih =>
    obtain ⟨k1, l1⟩ := p
    rw [setKind_cons]
    by_cases hk : k1 = k
    · subst hk
      rw [if_pos rfl, hasKind_cons, hasKind_cons, ih]
    · rw [if_neg hk, hasKind_cons, hasKind_cons, ih]

theorem hasKind_eraseKind_ne {m : ResMap} {k k2 : String} (h : k ≠ k2) :
    hasKind (eraseKind m k) k2 = hasKind m k2 := by
  induction m with
  | nil => rfl
  | cons p rest ih =>
    obtain ⟨k1, l1⟩ := p
    rw [eraseKind_cons]
    by_cases hk : k1 = k
    · subst hk
      rw [if_pos rfl, hasKind_cons, if_neg (fun hc => h hc), ih]
    · rw [if_neg hk, hasKind_cons, hasKind_cons, ih]

theorem drop_go_spec :
    ∀ {reserved self : ResMap},
      NodupKeys reserved →
      (∀ p ∈ reserved, AllHashed (lookupD self p.1)) →
      (∀ p ∈ reserved, AllHashed p.2) →
      (∀ p ∈ reserved, (↑(hashesOf p.2) : Multiset Val) ≤ ↑(hashesOf (lookupD self p.1))) →
      (∀ p ∈ reserved, hasKind self p.1 = true) →
      ∃ final, drop_go true self reserved = .ok final ∧
        (∀ p ∈ reserved, (↑(hashesAt final p.1) : Multiset Val) =
           ↑(hashesAt self p.1) - ↑(hashesOf p.2)) ∧
        (∀ k, k ∉ keysOf reserved → lookupD final k = lookupD self k) := by
  intro reserved
  induction reserved with
  | nil =>
    intro self _ _ _ _ _
    exact ⟨self, rfl, fun p hp => absurd hp (by simp), fun k _ => rfl⟩
  | cons p rest ih =>
    intro self hnd hsh hrh hle hhk
    obtain ⟨key, rlist⟩ := p
    have hkey_not_rest : key ∉ keysOf rest := by
      have := hnd
      simp only [NodupKeys, keysOf, List.map_cons, List.nodup_cons] at this
      exact this.1
    have hnd2 : NodupKeys rest := by
      have := hnd
      simp only [NodupKeys, keysOf, List.map_cons, List.nodup_cons] at this
      exact this.2
    obtain ⟨new_list, hnew⟩ := dropList_ok_of_le
      (hsh (key, rlist) (by simp)) (hrh (key, rlist) (by simp))
      (hle (key, rlist) (by simp))
    have hnewh : (↑(hashesOf new_list) : Multiset Val) =
        ↑(hashesOf (lookupD self key)) - ↑(hashesOf rlist) :=
      dropList_ok_hashes (hsh (key, rlist) (by simp)) hnew
    rw [drop_go, hnew]
    have hkd : hasKind self key = true := hhk (key, rlist) (by simp)
    by_cases hempty : new_list.isEmpty
    · simp only [hempty, if_true]
      rw [hasKind_setKind, hkd]
      simp only [if_true]
      set self3 := eraseKind (setKind self key new_list) key with hself3
      have hl3 : ∀ k2, k2 ≠ key → lookupD self3 k2 = lookupD self k2 := by
        intro k2 hk2
        rw [hself3, lookupD_eraseKind_ne (fun hc => hk2 hc.symm),
          lookupD_setKind_ne (fun hc => hk2 hc.symm)]
      have hh3 : ∀ k2, k2 ≠ key → hasKind self3 k2 = hasKind self k2 := by
        intro k2 hk2
        rw [hself3, hasKind_eraseKind_ne (fun hc => hk2 hc.symm),
          hasKind_setKind]
      have hmem_ne : ∀ q ∈ rest, (q : String × List Val).1 ≠ key := by
        intro q hq hc
        exact hkey_not_rest (hc ▸ (by exact List.mem_map_of_mem Prod.fst hq))
      obtain ⟨final, hfin, hfh, hfp⟩ := ih hnd2
        (fun q hq => by rw [hl3 q.1 (hmem_ne q hq)]; exact hsh q (by simp [hq]))
        (fun q hq => hrh q (by simp [hq]))
        (fun q hq => by rw [hl3 q.1 (hmem_ne q hq)]; exact hle q (by simp [hq]))
        (fun q hq => by rw [hh3 q.1 (hmem_ne q hq)]; exact hhk q (by simp [hq]))
      refine ⟨final, hfin, ?_, ?_⟩
      · intro q hq
        rcases List.mem_cons.mp hq with rfl | hq2
        · have hfk : lookupD final key = lookupD self3 key :=
            hfp key hkey_not_rest
          rw [hself3] at hfk
          rw [lookupD_eraseKind_self] at hfk
          have hnle : hashesOf new_list = [] := by
            cases new_list with
            | nil => rfl
            | cons a b => simp at hempty
          rw [hashesAt, hfk]
          rw [hashesAt, ← hnewh, hnle]
          simp [hashesOf]
        · have h0 := hfh q hq2
          have heq3 : hashesAt self3 q.1 = hashesAt self q.1 := by
            rw [hashesAt, hashesAt, hl3 q.1 (hmem_ne q hq2)]
          rwa [heq3] at h0
      · intro k hk
        have hkc : keysOf ((key, rlist) :: rest) = key :: keysOf rest := rfl
        rw [hkc] at hk
        have hk1 : k ≠ key := fun hc => hk (by rw [hc]; exact List.mem_cons_self _ _)
        have hk2 : k ∉ keysOf rest := fun hc => hk (List.mem_cons_of_mem _ hc)
        rw [hfp k hk2]
        exact hl3 k hk1
    · simp only [hempty, Bool.false_eq_true, if_false]
      set self2 := setKind self key new_list with hself2
      have hl2 : ∀ k2, k2 ≠ key → lookupD self2 k2 = lookupD self k2 := by
        intro k2 hk2
        rw [hself2, lookupD_setKind_ne (fun hc => hk2 hc.symm)]
      have hh2 : ∀ k2, hasKind self2 k2 = hasKind self k2 := by
        intro k2
        rw [hself2, hasKind_setKind]
      have hmem_ne : ∀ q ∈ rest, (q : String × List Val).1 ≠ key := by
        intro q hq hc
        exact hkey_not_rest (hc ▸ (by exact List.mem_map_of_mem Prod.fst hq))
      obtain ⟨final, hfin, hfh, hfp⟩ := ih hnd2
        (fun q hq => by rw [hl2 q.1 (hmem_ne q hq)]; exact hsh q (by simp [hq]))
        (fun q hq => hrh q (by simp [hq]))
        (fun q hq => by rw [hl2 q.1 (hmem_ne q hq)]; exact hle q (by simp [hq]))
        (fun q hq => by rw [hh2 q.1]; exact hhk q (by simp [hq]))
      refine ⟨final, hfin, ?_, ?_⟩
      · intro q hq
        rcases List.mem_cons.mp hq with rfl | hq2
        · have hfk : lookupD final key = lookupD self2 key :=
            hfp key hkey_not_rest
          rw [hself2, lookupD_setKind_self hkd] at hfk
          show (↑(hashesAt final key) : Multiset Val) =
            ↑(hashesAt self key) - ↑(hashesOf rlist)
          simp only [hashesAt]
          rw [hfk, hnewh]
        · have h0 := hfh q hq2
          have heq2 : hashesAt self2 q.1 = hashesAt self q.1 := by
            rw [hashesAt, hashesAt, hl2 q.1 (hmem_ne q hq2)]
          rwa [heq2] at h0
      · intro k hk
        have hkc : keysOf ((key, rlist) :: rest) = key :: keysOf rest := rfl
        rw [hkc] at hk
        have hk1 : k ≠ key := fun hc => hk (by rw [hc]; exact List.mem_cons_self _ _)
        have hk2 : k ∉ keysOf rest := fun hc => hk (List.mem_cons_of_mem _ hc)
        rw [hfp k hk2]
        exact hl2 k hk1

theorem drop_go_missing_err :
    ∀ {reserved self : ResMap},
      NodupKeys reserved →
      (∀ p ∈ reserved, AllHashed (lookupD self p.1)) →
      (∀ p ∈ reserved, AllHashed p.2) →
      (∀ p ∈ reserved, hasKind self p.1 = true) →
      (∃ p ∈ reserved, ∃ r ∈ (p : String × List Val).2,
        pyhash r ∉ hashesOf (lookupD self p.1)) →
      drop_go true self reserved =
        .error (.runtimeError "Asked to drop resource from a pool, but the resource was not found") := by
  intro reserved
  induction reserved with
  | nil =>
    intro self _ _ _ _ hmiss
    obtain ⟨p, hp, _⟩ := hmiss
    simp at hp
  | cons p rest ih =>
    intro self hnd hsh hrh hhk hmiss
    obtain ⟨key, rlist⟩ := p
    have hkey_not_rest : key ∉ keysOf rest := by
      have := hnd
      simp only [NodupKeys, keysOf, List.map_cons, List.nodup_cons] at this
      exact this.1
    have hnd2 : NodupKeys rest := by
      have := hnd
      simp only [NodupKeys, keysOf, List.map_cons, List.nodup_cons] at this
      exact this.2
    have hmem_ne : ∀ q ∈ rest, (q : String × List Val).1 ≠ key := by
      intro q hq hc
      exact hkey_not_rest (hc ▸ (by exact List.mem_map_of_mem Prod.fst hq))
    rw [drop_go]
    rcases @dropList_dichotomy rlist (lookupD self key)
        (hsh (key, rlist) (by simp)) (hrh (key, rlist) (by simp)) with
      ⟨new_list, hnew⟩ | herr
    · -- this kind dropped fine, so the missing hash lives further down
      have hall : ∀ r ∈ rlist, pyhash r ∈ hashesOf (lookupD self key) :=
        dropList_ok_mem_hashes hnew
      have hmiss2 : ∃ q ∈ rest, ∃ r ∈ (q : String × List Val).2,
          pyhash r ∉ hashesOf (lookupD self q.1) := by
        obtain ⟨q, hq, r, hr, hnm⟩ := hmiss
        rcases List.mem_cons.mp hq with rfl | hq2
        · exact absurd (hall r hr) hnm
        · exact ⟨q, hq2, r, hr, hnm⟩
      rw [hnew]
      have hkd : hasKind self key = true := hhk (key, rlist) (by simp)
      by_cases hempty : new_list.isEmpty
      · simp only [hempty, if_true]
        rw [hasKind_setKind, hkd]
        simp only [if_true]
        set self3 := eraseKind (setKind self key new_list) key with hself3
        have hl3 : ∀ k2, k2 ≠ key → lookupD self3 k2 = lookupD self k2 := by
          intro k2 hk2
          rw [hself3, lookupD_eraseKind_ne (fun hc => hk2 hc.symm),
            lookupD_setKind_ne (fun hc => hk2 hc.symm)]
        have hh3 : ∀ k2, k2 ≠ key → hasKind self3 k2 = hasKind self k2 := by
          intro k2 hk2
          rw [hself3, hasKind_eraseKind_ne (fun hc => hk2 hc.symm),
            hasKind_setKind]
        apply ih hnd2
          (fun q hq => by rw [hl3 q.1 (hmem_ne q hq)]; exact hsh q (by simp [hq]))
          (fun q hq => hrh q (by simp [hq]))
          (fun q hq => by rw [hh3 q.1 (hmem_ne q hq)]; exact hhk q (by simp [hq]))
        obtain ⟨q, hq, r, hr, hnm⟩ := hmiss2
        refine ⟨q, hq, r, hr, ?_⟩
        rw [hl3 q.1 (hmem_ne q hq)]
        exact hnm
      · simp only [hempty, Bool.false_eq_true, if_false]
        set self2 := setKind self key new_list with hself2
        have hl2 : ∀ k2, k2 ≠ key → lookupD self2 k2 = lookupD self k2 := by
          intro k2 hk2
          rw [hself2, lookupD_setKind_ne (fun hc => hk2 hc.symm)]
        apply ih hnd2
          (fun q hq => by rw [hl2 q.1 (hmem_ne q hq)]; exact hsh q (by simp [hq]))
          (fun q hq => hrh q (by simp [hq]))
          (fun q hq => by rw [hself2, hasKind_setKind]; exact hhk q (by simp [hq]))
        obtain ⟨q, hq, r, hr, hnm⟩ := hmiss2
        refine ⟨q, hq, r, hr, ?_⟩
        rw [hl2 q.1 (hmem_ne q hq)]
        exact hnm
    · rw [herr]

/- ## ResourcesPool.reserve / free and ReservedResources (resource.py) -/

/-- `Resources.mark_reserved_by(origin_id)`: stamp every reserved item with
`_reserved_by = origin_id`. -/
def mark_reserved_by (m : ResMap) (origin_id : String) : ResMap :=
  m.map (fun p => (p.1, p.2.map (fun it => dictSet it RESERVED_KEY (.vstr origin_id))))

/-- Modelled from the spec: `schema.add` (schema.py is not in the sources).
The spec's reserve step says "Append them to the Record", so per kind the
added items are appended to the record's existing list, and new kinds are
appended at the end. -/
def schema_add (self more : ResMap) : ResMap :=
  more.foldl (fun acc kv =>
    if hasKind acc kv.1 then setKind acc kv.1 (lookupD acc kv.1 ++ kv.2)
    else acc ++ [kv]) self

/-- The critical section of `ResourcesPool.reserve` (resource.py): with the
record read from the state file, compute
`available = all_resources.without(reserved)`, run `find` on the want,
stamp the chosen items with the origin and add them to the record.
Returns the record to be written back together with `to_be_reserved`.
(Schema validation of `want`/`modifiers` and the `modifiers` overlay onto
the handle's copy live in the missing config.py/schema.py and play no role
in the reserved record itself.) -/
def ResourcesPool.reserve (all_resources record want : ResMap) (origin_id : String) :
    Except Err (ResMap × ResMap) :=
  match without all_resources record with
  | .error e => .error e
  | .ok available =>
    match find available want none true with
    | .error e => .error e
    | .ok tbr0 =>
      let tbr := mark_reserved_by tbr0 origin_id
      .ok (schema_add record tbr, tbr)

/-- `ResourcesPool.free(origin, to_be_freed)` (resource.py): read the
record, `reserved.drop(to_be_freed)` (distinct objects, so the identity
test is false), write back. -/
def ResourcesPool.free (record to_be_freed : ResMap) : Except Err ResMap :=
  Resources.drop false true record to_be_freed

/- The three diagnostic messages of ReservedResources.get and their common
wrapper (resource.py; the `%r`-formatted specifics of the first and third
message do not matter to any property and are left out). -/

def get_msg_none_matches : String :=
  "none of the reserved resources matches requirements"

def get_msg_all_reserved (n : Nat) (kind : String) : String :=
  "suite.conf reserved only " ++ toString n ++ " x " ++ kind ++ "."

def get_msg_all_in_use (n : Nat) (kind : String) (m : Nat) : String :=
  "No unused resource left that matches the requirements; Of reserved " ++
    toString n ++ " x " ++ kind ++ ", " ++ toString m ++
    " match the requirements, but all are already in use"

def get_wrap_msg (n : Nat) (kind : String) (msg : String) : String :=
  "When trying to use instance nr " ++ toString n ++ " of " ++ kind ++ ": " ++ msg

/-- `ReservedResources.get(kind, specifics)` (resource.py): find one
not-yet-used reserved item matching `specifics`
(`skip_if_marked=USED_KEY`, `do_copy=False`, `raise_if_missing=False`),
assert it unused, mark it used in the handle's record and return it (the
source mutates the record through aliasing and hands the caller a deep
copy; with value semantics the marked index is written back explicitly).
When nothing is available, rebuild the source's three-way diagnostic from
the reserved count, the used count (`USED_KEY in r`, key presence) and a
second unrestricted find. -/
def RR_get (reserved : ResMap) (kind : String) (specifics : Val) :
    Except Err (Val × ResMap) :=
  let my_list := lookupD reserved kind
  match find_kind_indices my_list [specifics] (some USED_KEY) false kind with
  | .error e => .error e
  | .ok idxs =>
    match idxs with
    | [] =>
      let kind_reserved := lookupD reserved kind
      let used_count := (kind_reserved.filter (fun r => dictHasKey r USED_KEY)).length
      match find reserved [(kind, [specifics])] none false with
      | .error e => .error e
      | .ok md =>
        let matching := lookupD md kind
        let msg :=
          if matching.isEmpty then get_msg_none_matches
          else if ¬(used_count < kind_reserved.length) then
            get_msg_all_reserved kind_reserved.length kind
          else get_msg_all_in_use kind_reserved.length kind matching.length
        .error (.noResourceExn (get_wrap_msg (used_count + 1) kind msg))
    | i :: _ =>
      let pick := my_list.getD i .vnone
      if truthy (pyGet pick USED_KEY) then .error .assertionError
      else
        let pick2 := dictSet pick USED_KEY (.vbool true)
        .ok (pick2, setKind reserved kind (my_list.set i pick2))

/-- The loop of `ReservedResources.put(item)` over
`self.reserved.items()`, translated faithfully: the body reads
`my_list = self.get(key)` — `ReservedResources` is not a dict and its only
`get` is the resource-drawing method above, so this draws and marks a
fresh item (the bound `item_list` is never used) — and then
`for my_item in my_list` iterates the returned dict, i.e. its keys, so
`my_item.get(HASH_KEY)` raises AttributeError on the first key (the drawn
item always carries at least `_used`); a non-dict pick would raise
TypeError at the `for` itself. -/
def RR_put_go (state : ResMap) : List (String × List Val) → Except Err ResMap
  | [] => .ok state
  | (key, _item_list) :: rest =>
    match RR_get state key (.vdict []) with
    | .error e => .error e
    | .ok (pick2, state2) =>
      match pick2 with
      | .vdict [] => RR_put_go state2 rest
      | .vdict (_ :: _) =>
        .error (.attributeError "str object has no attribute get")
      | _ => .error (.typeError "object is not iterable as dict items")

/-- `ReservedResources.put(item)` (resource.py). -/
def RR_put (reserved : ResMap) (item : Val) : Except Err ResMap :=
  if ¬truthy (pyGet item USED_KEY) then
    .error (.runtimeError "Can only put() a resource that is used")
  else if ¬truthy (pyGet item HASH_KEY) then
    .error (.runtimeError "Can only put() a resource that has a hash marker")
  else RR_put_go reserved reserved

/- ## Persistent counters (resource.py, next_persistent_value and friends) -/

/-- The state directory as a map from file name to contents. -/
abbrev FileMap : Type := List (String × String)

def getFile (st : FileMap) (path : String) : Option String :=
  (st.find? (fun p => p.1 == path)).map Prod.snd

def setFile (st : FileMap) (path contents : String) : FileMap :=
  if st.any (fun p => p.1 == path) then
    st.map (fun p => if p.1 == path then (p.1, contents) else p)
  else st ++ [(path, contents)]

def digitChar : Nat → Char
  | 0 => '0' | 1 => '1' | 2 => '2' | 3 => '3' | 4 => '4'
  | 5 => '5' | 6 => '6' | 7 => '7' | 8 => '8' | _ => '9'

def natToStrGo : Nat → Nat → List Char → List Char
  | 0, _, acc => acc
  | fuel + 1, n, acc =>
    if n < 10 then digitChar n :: acc
    else natToStrGo fuel (n / 10) (digitChar (n % 10) :: acc)

/-- Python `str(n)` for a natural number. -/
def natToStr (n : Nat) : String := String.mk (natToStrGo (n + 1) n [])

def decVal : List Char → Nat → Option Nat
  | [], acc => some acc
  | c :: cs, acc =>
    if 48 ≤ c.toNat ∧ c.toNat ≤ 57 then decVal cs (acc * 10 + (c.toNat - 48))
    else none

/-- Python `int(s)` for the non-negative decimal strings the counter files
hold (`none` models the ValueError on anything else). -/
def strToNat (s : String) : Option Nat :=
  match s.data with
  | [] => none
  | l => decVal l 0

/-- Python `int(x)` where the value is known to parse (counter values are
validated before use). -/
def pyInt (s : String) : Nat := (strToNat s).getD 0

/-- Modelled from the spec: `schema.uint16` (schema.py is not in the
sources) — the persisted value must be a decimal in 0..65535. -/
def uint16_ok (s : String) : Bool :=
  match strToNat s with
  | some n => n < 65536
  | none => false

/-- Modelled from the spec: `schema.uint8`. -/
def uint8_ok (s : String) : Bool :=
  match strToNat s with
  | some n => n < 256
  | none => false

/-- `ResourcesPool.next_persistent_value(token, first_val, validate_func,
inc_func, origin)` (resource.py): under the caller's lock, read
`last_used_<token>.state` (absent file means `first_val`, and only an
existing file is validated), then write and return `inc_func(last)`. -/
def next_persistent_value (st : FileMap) (token first_val : String)
    (validate : String → Bool) (inc : String → String) :
    Except Err (String × FileMap) :=
  let token_path := "last_used_" ++ token ++ ".state"
  match getFile st token_path with
  | some last =>
    if validate last then
      let next_value := inc last
      .ok (next_value, setFile st token_path next_value)
    else .error (.validationError last)
  | none =>
    let next_value := inc first_val
    .ok (next_value, setFile st token_path next_value)

/-- `ResourcesPool.next_lac` (resource.py): 16-bit wraparound skipping the
reserved LAC 0 (`str(((int(x)+1) % pow(2,16)) or 1)`). -/
def next_lac (st : FileMap) : Except Err (String × FileMap) :=
  next_persistent_value st "lac" "1" uint16_ok
    (fun x => natToStr (let v := (pyInt x + 1) % 65536; if v = 0 then 1 else v))

/-- `ResourcesPool.next_rac` (resource.py). -/
def next_rac (st : FileMap) : Except Err (String × FileMap) :=
  next_persistent_value st "rac" "1" uint8_ok
    (fun x => natToStr (let v := (pyInt x + 1) % 256; if v = 0 then 1 else v))

/-- `ResourcesPool.next_cellid` (resource.py). -/
def next_cellid (st : FileMap) : Except Err (String × FileMap) :=
  next_persistent_value st "cellid" "1" uint16_ok
    (fun x => natToStr ((pyInt x + 1) % 65536))

/-- `ResourcesPool.next_bvci` (resource.py): BVCI 0 and 1 are reserved,
`str(int(x)+1) if int(x) < pow(2,16) - 1 else '2'`. -/
def next_bvci (st : FileMap) : Except Err (String × FileMap) :=
  next_persistent_value st "bvci" "2" uint16_ok
    (fun x => if (pyInt x : Int) < 65535 then natToStr (pyInt x + 1) else "2")

/-- `ResourcesPool.next_zmq_port_range(origin, num_ports)` (resource.py):
rounds `num_ports` up to even and allocates a base port in 2000..2200 —
but passes the token `'bvci'` to `next_persistent_value`, so it shares
`last_used_bvci.state` with `next_bvci`. -/
def next_zmq_port_range (st : FileMap) (num_ports0 : Nat) :
    Except Err (Nat × FileMap) :=
  let num_ports := if num_ports0 % 2 = 0 then num_ports0 else num_ports0 + 1
  match next_persistent_value st "bvci" "2000" uint16_ok
      (fun x => if (pyInt x : Int) < 2200 - (num_ports : Int) then
          natToStr (pyInt x + num_ports)
        else "2000") with
  | .error e => .error e
  | .ok (base_port, st2) => .ok (pyInt base_port, st2)

/- ## The cross-process interleaving model of reserve (for the mutual
exclusion property): each reservation attempt is a process running
acquire-lock(origin) / read-state-file / compute-and-write / release-lock,
the exact critical section of `ResourcesPool.reserve` under
`self.state_dir.lock(origin_id)`.  The lock is modelled from the spec
(util.py is not in the sources): "an exclusive, process-crossing advisory
file lock scoped to the caller's identity token" — acquiring blocks only
while the same-named lock is held. -/

instance {α β : Type} [DecidableEq α] [DecidableEq β] : DecidableEq (Except α β) :=
  fun a b =>
    match a, b with
    | .ok x, .ok y =>
      if h : x = y then .isTrue (by rw [h])
      else .isFalse (by intro hc; cases hc; exact h rfl)
    | .error x, .error y =>
      if h : x = y then .isTrue (by rw [h])
      else .isFalse (by intro hc; cases hc; exact h rfl)
    | .ok _, .error _ => .isFalse (fun hc => Except.noConfusion hc)
    | .error _, .ok _ => .isFalse (fun hc => Except.noConfusion hc)

structure ProcSt : Type where
  pc : Nat
  localRec : ResMap
  result : Option (Except Err ResMap)
  deriving DecidableEq, Repr

structure GState : Type where
  locks : List String
  file : ResMap
  p1 : ProcSt
  p2 : ProcSt
  deriving DecidableEq, Repr

/-- One step of one reservation process: pc 0 acquires the per-origin
lock, pc 1 reads the shared state file into the local record, pc 2 runs
the in-memory body of `reserve` on the local record and (on success)
writes the new record to the file, pc 3 releases the lock.  `none` when
the process is finished or its acquire would block. -/
def procStep (catalog want : ResMap) (origin : String) (locks : List String)
    (file : ResMap) (p : ProcSt) :
    Option (List String × ResMap × ProcSt) :=
  match p.pc with
  | 0 =>
    if origin ∈ locks then none
    else some (origin :: locks, file, { p with pc := 1 })
  | 1 => some (locks, file, { p with pc := 2, localRec := file })
  | 2 =>
    match ResourcesPool.reserve catalog p.localRec want origin with
    | .ok (rec2, tbr) =>
      some (locks, rec2, { p with pc := 3, result := some (.ok tbr) })
    | .error e =>
      some (locks, file, { p with pc := 3, result := some (.error e) })
  | 3 => some (locks.erase origin, file, { p with pc := 4 })
  | _ => none

def stepG (catalog w1 w2 : ResMap) (o1 o2 : String) (s : GState) (i : Fin 2) :
    Option GState :=
  if i = 0 then
    match procStep catalog w1 o1 s.locks s.file s.p1 with
    | some (lk, f, p) => some { s with locks := lk, file := f, p1 := p }
    | none => none
  else
    match procStep catalog w2 o2 s.locks s.file s.p2 with
    | some (lk, f, p) => some { s with locks := lk, file := f, p2 := p }
    | none => none

def runG (catalog w1 w2 : ResMap) (o1 o2 : String) :
    List (Fin 2) → GState → Option GState
  | [], s => some s
  | i :: rest, s =>
    match stepG catalog w1 w2 o1 o2 s i with
    | some s2 => runG catalog w1 w2 o1 o2 rest s2
    | none => none

def initG (record : ResMap) : GState :=
  { locks := [], file := record,
    p1 := { pc := 0, localRec := [], result := none },
    p2 := { pc := 0, localRec := [], result := none } }


theorem lookupD_ne_nil_hasKind {m : ResMap} {k : String}
    (h : lookupD m k ≠ []) : hasKind m k = true := by
  rw [lookupD] at h
  cases hf : m.find? (fun p => p.1 == k) with
  | none => rw [hf] at h; simp at h
  | some q =>
    rw [hasKind, List.any_eq_true]
    refine ⟨q, List.mem_of_find?_eq_some hf, ?_⟩
    have := List.find?_some hf
    simpa using this

theorem drop_go_ok_hashes :
    ∀ {reserved self final : ResMap},
      NodupKeys reserved →
      (∀ p ∈ reserved, AllHashed (lookupD self p.1)) →
      drop_go true self reserved = .ok final →
      (∀ p ∈ reserved, (↑(hashesAt final p.1) : Multiset Val) =
         ↑(hashesAt self p.1) - ↑(hashesOf p.2)) ∧
      (∀ k, k ∉ keysOf reserved → lookupD final k = lookupD self k) := by
  intro reserved
  induction reserved with
  | nil =>
    intro self final _ _ hok
    rw [drop_go] at hok
    cases hok
    exact ⟨fun p hp => absurd hp (by simp), fun k _ => rfl⟩
  | cons p rest ih =>
    intro self final hnd hsh hok
    obtain ⟨key, rlist⟩ := p
    have hkey_not_rest : key ∉ keysOf rest := by
      have := hnd
      simp only [NodupKeys, keysOf, List.map_cons, List.nodup_cons] at this
      exact this.1
    have hnd2 : NodupKeys rest := by
      have := hnd
      simp only [NodupKeys, keysOf, List.map_cons, List.nodup_cons] at this
      exact this.2
    have hmem_ne : ∀ q ∈ rest, (q : String × List Val).1 ≠ key := by
      intro q hq hc
      exact hkey_not_rest (hc ▸ (by exact List.mem_map_of_mem Prod.fst hq))
    rw [drop_go] at hok
    split at hok
    · exact Except.noConfusion hok
    case _ new_list hnew =>
      have hnewh : (↑(hashesOf new_list) : Multiset Val) =
          ↑(hashesOf (lookupD self key)) - ↑(hashesOf rlist) :=
        dropList_ok_hashes (hsh (key, rlist) (by simp)) hnew
      by_cases hempty : new_list.isEmpty
      · rw [if_pos hempty] at hok
        split at hok
        case _ hhk =>
          set self3 := eraseKind (setKind self key new_list) key with hself3
          have hl3 : ∀ k2, k2 ≠ key → lookupD self3 k2 = lookupD self k2 := by
            intro k2 hk2
            rw [hself3, lookupD_eraseKind_ne (fun hc => hk2 hc.symm),
              lookupD_setKind_ne (fun hc => hk2 hc.symm)]
          obtain ⟨hfh, hfp⟩ := ih hnd2
            (fun q hq => by rw [hl3 q.1 (hmem_ne q hq)]; exact hsh q (by simp [hq]))
            hok
          refine ⟨?_, ?_⟩
          · intro q hq
            rcases List.mem_cons.mp hq with rfl | hq2
            · have hfk : lookupD final key = lookupD self3 key :=
                hfp key hkey_not_rest
              rw [hself3, lookupD_eraseKind_self] at hfk
              have hnle : hashesOf new_list = [] := by
                cases new_list with
                | nil => rfl
                | cons a b => simp at hempty
              show (↑(hashesAt final key) : Multiset Val) =
                ↑(hashesAt self key) - ↑(hashesOf rlist)
              rw [hashesAt, hfk]
              rw [hashesAt, ← hnewh, hnle]
              simp [hashesOf]
            · have h0 := hfh q hq2
              have heq3 : hashesAt self3 q.1 = hashesAt self q.1 := by
                rw [hashesAt, hashesAt, hl3 q.1 (hmem_ne q hq2)]
              rwa [heq3] at h0
          · intro k hk
            have hkc : keysOf ((key, rlist) :: rest) = key :: keysOf rest := rfl
            rw [hkc] at hk
            have hk1 : k ≠ key := fun hc => hk (by rw [hc]; exact List.mem_cons_self _ _)
            have hk2 : k ∉ keysOf rest := fun hc => hk (List.mem_cons_of_mem _ hc)
            rw [hfp k hk2]
            exact hl3 k hk1
        · exact Except.noConfusion hok
      · rw [if_neg hempty] at hok
        have hkd : hasKind self key = true := by
          apply lookupD_ne_nil_hasKind
          intro hc
          have hsub := dropList_ok_sublist hnew
          rw [hc] at hsub
          have : new_list = [] := List.sublist_nil.mp hsub
          rw [this] at hempty
          exact hempty rfl
        set self2 := setKind self key new_list with hself2
        have hl2 : ∀ k2, k2 ≠ key → lookupD self2 k2 = lookupD self k2 := by
          intro k2 hk2
          rw [hself2, lookupD_setKind_ne (fun hc => hk2 hc.symm)]
        obtain ⟨hfh, hfp⟩ := ih hnd2
          (fun q hq => by rw [hl2 q.1 (hmem_ne q hq)]; exact hsh q (by simp [hq]))
          hok
        refine ⟨?_, ?_⟩
        · intro q hq
          rcases List.mem_cons.mp hq with rfl | hq2
          · have hfk : lookupD final key = lookupD self2 key :=
              hfp key hkey_not_rest
            rw [hself2, lookupD_setKind_self hkd] at hfk
            show (↑(hashesAt final key) : Multiset Val) =
              ↑(hashesAt self key) - ↑(hashesOf rlist)
            simp only [hashesAt]
            rw [hfk, hnewh]
          · have h0 := hfh q hq2
            have heq2 : hashesAt self2 q.1 = hashesAt self q.1 := by
              rw [hashesAt, hashesAt, hl2 q.1 (hmem_ne q hq2)]
            rwa [heq2] at h0
        · intro k hk
          have hkc : keysOf ((key, rlist) :: rest) = key :: keysOf rest := rfl
          rw [hkc] at hk
          have hk1 : k ≠ key := fun hc => hk (by rw [hc]; exact List.mem_cons_self _ _)
          have hk2 : k ∉ keysOf rest := fun hc => hk (List.mem_cons_of_mem _ hc)
          rw [hfp k hk2]
          exact hl2 k hk1

/- ## Concrete scenario values used by several claims -/

def modemA : Val := .vdict [("type", .vstr "sysmoA"), (HASH_KEY, .vstr "h1")]

def modemB : Val := .vdict [("type", .vstr "sysmoB"), (HASH_KEY, .vstr "h2")]

def usedA : Val :=
  .vdict [("type", .vstr "sysmoA"), (HASH_KEY, .vstr "h1"), (USED_KEY, .vbool true)]

def usedB : Val :=
  .vdict [("type", .vstr "sysmoB"), (HASH_KEY, .vstr "h2"), (USED_KEY, .vbool true)]

/-- A handle record with one reserved modem. -/
def handle1 : ResMap := [("modem", [modemA])]

/-- A handle record with two reserved modems. -/
def handle2 : ResMap := [("modem", [modemA, modemB])]

/- ## Claims -/

/-- C1 (as amended): for every NON-EMPTY list of candidate index lists that
admits a system of distinct representatives, `solve` returns an assignment
of the same length whose i-th entry is drawn from `candidate_lists[i]` with
all entries pairwise distinct (`solve` being a function, the result is
deterministic, and it is by construction the first solution of the
depth-first search in slot order and within-list candidate order); in
particular `solve([[0,1,2],[0],[0,2]]) == [1,0,2]`. -/
theorem C1_solve_sdr {L : List (List Nat)} (hne : L ≠ [])
    (hex : ∃ a, IsSDR L a) :
    (∃ r, solve L = .ok r ∧ IsSDR L r) ∧
      solve [[0, 1, 2], [0], [0, 2]] = .ok [1, 0, 2] :=
  ⟨solve_ok_of_sdr hne hex, rfl⟩

theorem C1_solve_sdr_witness :
    (∃ r, solve [[0, 1, 2], [0], [0, 2]] = .ok r ∧ IsSDR [[0, 1, 2], [0], [0, 2]] r) ∧
      solve [[0, 1, 2], [0], [0, 2]] = .ok [1, 0, 2] :=
  C1_solve_sdr (by decide) ⟨[1, 0, 2], by decide⟩

/-- C1 counterexample: the claim quantifies over EVERY list of candidate
lists admitting a system of distinct representatives; the empty list
admits the empty system, yet `solve([])` raises
`RuntimeError('Cannot solve: no candidates')` instead of returning the
empty assignment. -/
theorem C1_counterexample :
    IsSDR [] [] ∧
      solve [] = .error (.runtimeError "Cannot solve: no candidates") :=
  ⟨by decide, rfl⟩

/-- C4: a non-empty list of candidate lists with no system of distinct
representatives makes `solve` fail with the solver-internal `NotSolvable`
— in particular `solve([[0],[0]])` does — and every error that escapes
`Resources.find` is a `NoResourceExn`, so `NotSolvable` never crosses the
Matcher boundary. -/
theorem C4_unsolvable_caught {L : List (List Nat)} (hne : L ≠ [])
    (hns : ¬∃ a, IsSDR L a) :
    solve L = .error (.notSolvable "The requested resource requirements are not solvable") ∧
      (∃ m, solve [[0], [0]] = .error (.notSolvable m)) ∧
      (∀ (self want : ResMap) (skip : Option String) (rim : Bool) (e : Err),
        find self want skip rim = .error e → ∀ m, e ≠ .notSolvable m) := by
  refine ⟨solve_err_of_no_sdr hne hns, ⟨_, rfl⟩, ?_⟩
  intro self want skip rim e he m hc
  obtain ⟨s, hs⟩ := find_err he
  rw [hs] at hc
  exact Err.noConfusion hc

theorem C4_unsolvable_caught_witness :
    solve [[0], [0]] =
        .error (.notSolvable "The requested resource requirements are not solvable") ∧
      (∃ m, solve [[0], [0]] = .error (.notSolvable m)) ∧
      (∀ (self want : ResMap) (skip : Option String) (rim : Bool) (e : Err),
        find self want skip rim = .error e → ∀ m, e ≠ .notSolvable m) := by
  apply C4_unsolvable_caught (by decide)
  rintro ⟨a, hlen, hnd, hmem⟩
  cases a with
  | nil => simp at hlen
  | cons x t =>
    cases t with
    | nil => simp at hlen
    | cons y t2 =>
      cases t2 with
      | cons z t3 => simp at hlen
      | nil =>
        have h0 := hmem 0 (by norm_num)
        have h1 := hmem 1 (by norm_num)
        simp [List.getD] at h0 h1
        subst h0
        subst h1
        simp at hnd

/-- C5 (code bug): after `item = get('modem', {})` on a handle with one
reserved modem, `put(item)` does not clear the used marker: its loop body
reads `my_list = self.get(key)` — `ReservedResources` has no dict `get`,
so this calls the resource-drawing `get` (the bound `item_list` is left
unused) — which here finds no unused modem and raises NoResourceExn, so a
subsequent `get('modem', {})` can never be reached, let alone return the
original hash. -/
theorem C5_put_draws_instead_of_clearing :
    RR_get handle1 "modem" (.vdict []) = .ok (usedA, [("modem", [usedA])]) ∧
      truthy (pyGet usedA USED_KEY) = true ∧
      truthy (pyGet usedA HASH_KEY) = true ∧
      RR_put [("modem", [usedA])] usedA =
        .error (.noResourceExn
          "When trying to use instance nr 2 of modem: suite.conf reserved only 1 x modem.") :=
  ⟨rfl, rfl, rfl, rfl⟩

/-- C6 (code bug): `next_zmq_port_range` passes the token `'bvci'` to
`next_persistent_value`, so it reads and writes `last_used_bvci.state`,
the very file of `next_bvci`: on a fresh state directory `next_bvci` would
return "3", but after `next_zmq_port_range(origin, 2)` has written "2002"
into the shared file, `next_bvci` returns "2003" — advancing the zmq
port-range counter does not leave the bvci counter's persisted value
unchanged. -/
theorem C6_zmq_clobbers_bvci :
    next_bvci [] = .ok ("3", [("last_used_bvci.state", "3")]) ∧
      next_zmq_port_range [] 2 = .ok (2002, [("last_used_bvci.state", "2002")]) ∧
      next_bvci [("last_used_bvci.state", "2002")] =
        .ok ("2003", [("last_used_bvci.state", "2003")]) :=
  ⟨rfl, rfl, rfl⟩

/-- C7: with exactly 2 reserved modems both already drawn, a third
`get('modem')` fails with a NoResourceExn citing cause (b) — everything of
that kind already in use, pointing at the suite.conf reservation count —
and not cause (a) (nothing matches); the three causes produce pairwise
distinct messages at these parameters. -/
theorem C7_exhaustion_cites_in_use :
    RR_get handle2 "modem" (.vdict []) = .ok (usedA, [("modem", [usedA, modemB])]) ∧
      RR_get [("modem", [usedA, modemB])] "modem" (.vdict []) =
        .ok (usedB, [("modem", [usedA, usedB])]) ∧
      RR_get [("modem", [usedA, usedB])] "modem" (.vdict []) =
        .error (.noResourceExn (get_wrap_msg 3 "modem" (get_msg_all_reserved 2 "modem"))) ∧
      get_msg_all_reserved 2 "modem" ≠ get_msg_none_matches ∧
      get_msg_all_reserved 2 "modem" ≠ get_msg_all_in_use 2 "modem" 2 ∧
      get_msg_none_matches ≠ get_msg_all_in_use 2 "modem" 2 :=
  ⟨rfl, rfl, rfl, by decide, by decide, by decide⟩

instance (l : List Val) : Decidable (AllHashed l) := by
  unfold AllHashed
  exact inferInstance

instance (m : ResMap) : Decidable (NodupKeys m) := by
  unfold NodupKeys
  exact inferInstance

/-- C9: `Resources.drop` fails loudly rather than silently corrupting the
accounting: dropping a set from itself is a hard RuntimeError; a dropped
item whose hash is not present in the receiver's list for its kind makes
`drop` (and hence `free`) raise the resource-was-not-found RuntimeError;
and on success exactly the hash-matched items are removed — per kind the
receiver's hash multiset shrinks by the dropped hash multiset, and kinds
not mentioned are untouched. -/
theorem C9_drop_fails_loudly :
    (∀ (self reserved : ResMap) (fail : Bool),
      Resources.drop true fail self reserved =
        .error (.runtimeError "Refusing to drop a list of resources from itself.")) ∧
    (∀ self reserved : ResMap,
      NodupKeys reserved →
      (∀ p ∈ reserved, AllHashed (lookupD self (p : String × List Val).1)) →
      (∀ p ∈ reserved, AllHashed (p : String × List Val).2) →
      (∀ p ∈ reserved, hasKind self (p : String × List Val).1 = true) →
      (∃ p ∈ reserved, ∃ r ∈ (p : String × List Val).2,
        pyhash r ∉ hashesOf (lookupD self p.1)) →
      Resources.drop false true self reserved =
        .error (.runtimeError "Asked to drop resource from a pool, but the resource was not found")) ∧
    (∀ self reserved final : ResMap,
      NodupKeys reserved →
      (∀ p ∈ reserved, AllHashed (lookupD self (p : String × List Val).1)) →
      Resources.drop false true self reserved = .ok final →
      (∀ p ∈ reserved, (↑(hashesAt final (p : String × List Val).1) : Multiset Val) =
         ↑(hashesAt self p.1) - ↑(hashesOf p.2)) ∧
      (∀ k, k ∉ keysOf reserved → lookupD final k = lookupD self k)) := by
  refine ⟨fun self reserved fail => rfl, ?_, ?_⟩
  · intro self reserved hnd hsh hrh hhk hmiss
    show drop_go true self reserved = _
    exact drop_go_missing_err hnd hsh hrh hhk hmiss
  · intro self reserved final hnd hsh hok
    exact drop_go_ok_hashes hnd hsh hok

theorem C9_drop_fails_loudly_witness :
    Resources.drop true true handle1 handle1 =
        .error (.runtimeError "Refusing to drop a list of resources from itself.") ∧
      Resources.drop false true [("modem", [modemA])] [("modem", [modemB])] =
        .error (.runtimeError "Asked to drop resource from a pool, but the resource was not found") ∧
      ((∀ p ∈ ([("modem", [modemA])] : ResMap),
          (↑(hashesAt [("modem", [modemB])] (p : String × List Val).1) : Multiset Val) =
            ↑(hashesAt [("modem", [modemA, modemB])] p.1) - ↑(hashesOf p.2)) ∧
        (∀ k, k ∉ keysOf ([("modem", [modemA])] : ResMap) →
          lookupD [("modem", [modemB])] k = lookupD [("modem", [modemA, modemB])] k)) :=
  ⟨C9_drop_fails_loudly.1 handle1 handle1 true,
   C9_drop_fails_loudly.2.1 [("modem", [modemA])] [("modem", [modemB])]
     (by decide) (by decide) (by decide) (by decide)
     ⟨("modem", [modemB]), by decide, modemB, by decide, by decide⟩,
   C9_drop_fails_loudly.2.2 [("modem", [modemA, modemB])] [("modem", [modemA])]
     [("modem", [modemB])] (by decide) (by decide) rfl⟩

theorem find_kind_indices_skip_unused {my_list want_list : List Val}
    {rim : Bool} {key : String} {idxs : List Nat}
    (hok : find_kind_indices my_list want_list (some USED_KEY) rim key = .ok idxs) :
    ∀ i ∈ idxs, truthy (pyGet (my_list.getD i .vnone) USED_KEY) = false := by
  intro i hi
  obtain ⟨w, hw, him⟩ := find_kind_indices_ok_mem hok i hi
  exact (mem_match_indices him).2.1 USED_KEY rfl

/-- C10: with `skip_if_marked=USED_KEY`, every candidate index the find
machinery returns points at an item whose used marker is absent or falsy,
so the item picked by `ReservedResources.get` is never one already in
active use and the `assert not pick.get(USED_KEY)` can never fail. -/
theorem C10_pick_never_used :
    (∀ (my_list want_list : List Val) (rim : Bool) (key : String)
        (idxs : List Nat),
      find_kind_indices my_list want_list (some USED_KEY) rim key = .ok idxs →
      ∀ i ∈ idxs, truthy (pyGet (my_list.getD i .vnone) USED_KEY) = false) ∧
    (∀ (reserved : ResMap) (kind : String) (specifics : Val),
      RR_get reserved kind specifics ≠ .error .assertionError) := by
  refine ⟨fun _ _ _ _ _ h => find_kind_indices_skip_unused h, ?_⟩
  intro reserved kind specifics h
  rw [RR_get] at h
  split at h
  case _ e he =>
    cases h
    obtain ⟨s, hs⟩ := find_kind_indices_err he
    exact Err.noConfusion hs
  case _ idxs hidx =>
    split at h
    · split at h
      case _ e2 hfind =>
        cases h
        obtain ⟨s, hs⟩ := find_err hfind
        exact Err.noConfusion hs
      case _ md hmd =>
        exact Err.noConfusion (Except.error.inj h)
    case _ i rest =>
      have h2 : (if truthy (pyGet ((lookupD reserved kind).getD i Val.vnone) USED_KEY) = true
          then (Except.error Err.assertionError : Except Err (Val × ResMap))
          else Except.ok
            (dictSet ((lookupD reserved kind).getD i Val.vnone) USED_KEY (Val.vbool true),
             setKind reserved kind ((lookupD reserved kind).set i
               (dictSet ((lookupD reserved kind).getD i Val.vnone) USED_KEY (Val.vbool true))))) =
          .error .assertionError := h
      have htr := find_kind_indices_skip_unused hidx i (by simp)
      rw [htr] at h2
      simp at h2

theorem C10_pick_never_used_witness :
    (∀ i ∈ [1],
        truthy (pyGet ([usedA, modemB].getD i .vnone) USED_KEY) = false) ∧
      RR_get handle2 "modem" (.vdict []) ≠ .error .assertionError :=
  ⟨C10_pick_never_used.1 [usedA, modemB] [.vdict []] false "modem" [1] rfl,
   C10_pick_never_used.2 handle2 "modem" (.vdict [])⟩

/-- C8: matching is recursive attribute-subset containment.  A want dict
matches exactly those dict items whose every want key recursively matches
(`item.get(key)`, which is `None` for an absent key, so a non-`None` want
value forces key presence), and never matches a non-dict; an empty want
dict matches any dict item; a want list against an item list of a common
scalar element type is unordered membership, and of a common structured
element type is element-wise matching with empty-instance padding; the
spec's concrete pair: `{type: sysmo, band: GSM-1800}` is matched by the
want `{type: sysmo}` but not by `{type: sysmo, band: GSM-900}`. -/
theorem C8_containment :
    (∀ (item : Val) (wkvs : List (String × Val)), is_dict item = true →
      (item_matches item (.vdict wkvs) = true ↔
        ∀ p ∈ wkvs, item_matches (pyGet item p.1) p.2 = true)) ∧
    (∀ (item : Val) (wkvs : List (String × Val)), is_dict item = false →
      item_matches item (.vdict wkvs) = false) ∧
    (∀ item : Val, is_dict item = true → item_matches item (.vdict []) = true) ∧
    (∀ (il wl : List Val) (t : PyType), elemTypes (wl ++ il) = .uniform t →
      ¬(t = PyType.tdict ∨ t = PyType.tlist) →
      (item_matches (.vlist il) (.vlist wl) = true ↔ ∀ wv ∈ wl, wv ∈ il)) ∧
    (∀ (il wl : List Val) (t : PyType), elemTypes (wl ++ il) = .uniform t →
      (t = PyType.tdict ∨ t = PyType.tlist) →
      (item_matches (.vlist il) (.vlist wl) = true ↔
        ∀ i < max wl.length il.length,
          item_matches (il.getD i (empty_instance t)) (wl.getD i (empty_instance t)) = true)) ∧
    item_matches (.vdict [("type", .vstr "sysmo"), ("band", .vstr "GSM-1800")])
      (.vdict [("type", .vstr "sysmo")]) = true ∧
    item_matches (.vdict [("type", .vstr "sysmo"), ("band", .vstr "GSM-1800")])
      (.vdict [("type", .vstr "sysmo"), ("band", .vstr "GSM-900")]) = false := by
  refine ⟨?_, ?_, ?_, ?_, ?_, by decide, by decide⟩
  · intro item wkvs hd
    cases item <;> simp [is_dict] at hd
    case vdict ikvs =>
      rw [item_matches_dict]
      rw [List.all_eq_true]
  · intro item wkvs hd
    exact item_matches_dict_notdict hd wkvs
  · intro item hd
    cases item <;> simp [is_dict] at hd
    case vdict ikvs =>
      rw [item_matches_dict]
      simp
  · intro il wl t ht hnt
    rw [item_matches_list_scalar ht hnt]
    rw [List.all_eq_true]
    constructor
    · intro h wv hwv
      have := h wv hwv
      rw [List.any_eq_true] at this
      obtain ⟨iv, hiv, hbeq⟩ := this
      have := (vbeq_iff _ _).mp hbeq
      rwa [this] at hiv
    · intro h wv hwv
      rw [List.any_eq_true]
      exact ⟨wv, h wv hwv, (vbeq_iff _ _).mpr rfl⟩
  · intro il wl t ht hst
    rw [item_matches_list_structured ht hst]
    rw [List.all_eq_true]
    constructor
    · intro h i hi
      exact h i (List.mem_range.mpr hi)
    · intro h i hi
      exact h i (List.mem_range.mp hi)

theorem C8_containment_witness :
    (item_matches (.vdict [("a", .vint 1), ("b", .vint 2)]) (.vdict [("a", .vint 1)]) = true ↔
      ∀ p ∈ [("a", Val.vint 1)],
        item_matches (pyGet (.vdict [("a", .vint 1), ("b", .vint 2)]) (Prod.fst p)) p.2 = true) ∧
      item_matches (.vlist [.vint 2]) (.vdict [("a", .vint 1)]) = false ∧
      item_matches (.vdict [("a", .vint 1)]) (.vdict []) = true ∧
      (item_matches (.vlist [.vint 1, .vint 2]) (.vlist [.vint 2]) = true ↔
        ∀ wv ∈ [Val.vint 2], wv ∈ [Val.vint 1, Val.vint 2]) ∧
      (item_matches (.vlist [.vdict [("a", .vint 1)]]) (.vlist [.vdict []]) = true ↔
        ∀ i < max [Val.vdict []].length [Val.vdict [("a", .vint 1)]].length,
          item_matches ([Val.vdict [("a", .vint 1)]].getD i (empty_instance PyType.tdict))
            ([Val.vdict []].getD i (empty_instance PyType.tdict)) = true) :=
  ⟨C8_containment.1 (.vdict [("a", .vint 1), ("b", .vint 2)]) [("a", .vint 1)] rfl,
   C8_containment.2.1 (.vlist [.vint 2]) [("a", .vint 1)] rfl,
   C8_containment.2.2.1 (.vdict [("a", .vint 1)]) rfl,
   C8_containment.2.2.2.1 [.vint 1, .vint 2] [.vint 2] PyType.tint (by decide) (by decide),
   C8_containment.2.2.2.2.1 [.vdict [("a", .vint 1)]] [.vdict []] PyType.tdict
     (by decide) (Or.inl rfl)⟩

theorem find_go_keys {self : ResMap} {skip : Option String} {rim : Bool} :
    ∀ {ws out : ResMap}, find_go self skip rim ws = .ok out →
      keysOf out = keysOf ws := by
  intro ws
  induction ws with
  | nil =>
    intro out h
    rw [find_go] at h
    cases h
    rfl
  | cons kw rest ih =>
    intro out h
    obtain ⟨key, want_list⟩ := kw
    rw [find_go] at h
    split at h
    · exact Except.noConfusion h
    case _ picked hk =>
      split at h
      · exact Except.noConfusion h
      case _ ms hr =>
        cases h
        show key :: keysOf ms = key :: keysOf rest
        rw [ih hr]

theorem find_go_ok_entry {self : ResMap} {skip : Option String} {rim : Bool} :
    ∀ {ws out : ResMap}, find_go self skip rim ws = .ok out →
      ∀ p ∈ out, ∃ wl, ((p : String × List Val).1, wl) ∈ ws ∧
        find_kind (lookupD self p.1) wl skip rim p.1 = .ok p.2 := by
  intro ws
  induction ws with
  | nil =>
    intro out h p hp
    rw [find_go] at h
    cases h
    simp at hp
  | cons kw rest ih =>
    intro out h p hp
    obtain ⟨key, want_list⟩ := kw
    rw [find_go] at h
    split at h
    · exact Except.noConfusion h
    case _ picked hk =>
      split at h
      · exact Except.noConfusion h
      case _ ms hr =>
        cases h
        rcases List.mem_cons.mp hp with rfl | hp2
        · exact ⟨want_list, by simp, hk⟩
        · obtain ⟨wl, hwl, hfk⟩ := ih hr p hp2
          exact ⟨wl, by simp [hwl], hfk⟩

theorem keysOf_mark (m : ResMap) (o : String) :
    keysOf (mark_reserved_by m o) = keysOf m := by
  simp [keysOf, mark_reserved_by]

theorem lookupD_mark (m : ResMap) (o : String) (k : String) :
    lookupD (mark_reserved_by m o) k =
      (lookupD m k).map (fun it => dictSet it RESERVED_KEY (.vstr o)) := by
  induction m with
  | nil => rfl
  | cons p rest ih =>
    obtain ⟨k1, l1⟩ := p
    rw [mark_reserved_by, List.map_cons]
    show lookupD ((k1, l1.map _) :: mark_reserved_by rest o) k = _
    rw [lookupD_cons, lookupD_cons]
    by_cases hk : k1 = k
    · rw [if_pos hk, if_pos hk]
    · rw [if_neg hk, if_neg hk]
      exact ih


theorem pyGet_cons (qk : String) (qv : Val) (rest : List (String × Val))
    (k2 : String) :
    pyGet (.vdict ((qk, qv) :: rest)) k2 =
      if qk = k2 then qv else pyGet (.vdict rest) k2 := by
  rw [pyGet, List.find?_cons]
  by_cases hq : qk = k2
  · have hb : (qk == k2) = true := by simpa using hq
    rw [hb]
    simp [hq]
  · have hb : (qk == k2) = false := by simpa using hq
    rw [hb]
    simp [hq, pyGet]

theorem pyGet_dictSet_ne {k k2 : String} (h : k ≠ k2) (d v : Val) :
    pyGet (dictSet d k v) k2 = pyGet d k2 := by
  cases d with
  | vdict kvs =>
    rw [dictSet]
    by_cases ha : kvs.any (fun p => p.1 == k)
    · rw [if_pos ha]
      clear ha
      induction kvs with
      | nil => rfl
      | cons q rest ih =>
        obtain ⟨qk, qv⟩ := q
        rw [List.map_cons]
        cases hqk : (qk == k) with
        | true =>
          have hk : qk = k := by simpa using hqk
          simp only [hqk, if_true]
          rw [pyGet_cons, pyGet_cons, if_neg (hk ▸ h), if_neg (hk ▸ h)]
          exact ih
        | false =>
          simp only [hqk, Bool.false_eq_true, if_false]
          rw [pyGet_cons, pyGet_cons]
          by_cases hq2 : qk = k2
          · rw [if_pos hq2, if_pos hq2]
          · rw [if_neg hq2, if_neg hq2]
            exact ih
    · rw [if_neg ha]
      clear ha
      induction kvs with
      | nil =>
        show pyGet (.vdict [(k, v)]) k2 = pyGet (.vdict []) k2
        rw [pyGet_cons, if_neg h]
      | cons q rest ih =>
        obtain ⟨qk, qv⟩ := q
        show pyGet (.vdict ((qk, qv) :: (rest ++ [(k, v)]))) k2 = _
        rw [pyGet_cons, pyGet_cons]
        by_cases hq2 : qk = k2
        · rw [if_pos hq2, if_pos hq2]
        · rw [if_neg hq2, if_neg hq2]
          exact ih
  | vstr s => rfl
  | vint n => rfl
  | vbool b => rfl
  | vnone => rfl
  | vlist l => rfl

theorem pyhash_mark_item (it : Val) (o : String) :
    pyhash (dictSet it RESERVED_KEY (.vstr o)) = pyhash it :=
  pyGet_dictSet_ne (by decide) it (.vstr o)

theorem hashesOf_mark_list (l : List Val) (o : String) :
    hashesOf (l.map (fun it => dictSet it RESERVED_KEY (.vstr o))) = hashesOf l := by
  rw [hashesOf, hashesOf, List.map_map]
  apply List.map_congr_left
  intro it _
  exact pyhash_mark_item it o

theorem AllHashed_mark_list {l : List Val} (h : AllHashed l) (o : String) :
    AllHashed (l.map (fun it => dictSet it RESERVED_KEY (.vstr o))) := by
  intro it hit
  obtain ⟨it0, hit0, rfl⟩ := List.mem_map.mp hit
  rw [pyhash_mark_item]
  exact h it0 hit0

theorem lookupD_eq_nil_of_not_hasKind {m : ResMap} {k : String}
    (h : hasKind m k = false) : lookupD m k = [] := by
  by_cases hl : lookupD m k = []
  · exact hl
  · rw [lookupD_ne_nil_hasKind hl] at h
    exact Bool.noConfusion h

theorem lookupD_eq_nil_of_not_mem_keys {m : ResMap} {k : String}
    (h : k ∉ keysOf m) : lookupD m k = [] := by
  apply lookupD_eq_nil_of_not_hasKind
  cases hh : hasKind m k with
  | false => rfl
  | true =>
    exfalso
    rw [hasKind, List.any_eq_true] at hh
    obtain ⟨p, hp, hpk⟩ := hh
    have : p.1 = k := by simpa using hpk
    exact h (this ▸ List.mem_map_of_mem Prod.fst hp)

theorem hasKind_of_mem {m : ResMap} {k : String} {l : List Val}
    (h : (k, l) ∈ m) : hasKind m k = true := by
  rw [hasKind, List.any_eq_true]
  exact ⟨(k, l), h, by simp⟩

theorem lookupD_of_mem_nodup {m : ResMap} {k : String} {l : List Val}
    (hnd : NodupKeys m) (h : (k, l) ∈ m) : lookupD m k = l := by
  induction m with
  | nil => simp at h
  | cons p rest ih =>
    obtain ⟨k1, l1⟩ := p
    rw [lookupD_cons]
    rcases List.mem_cons.mp h with heq | h2
    · cases heq
      rw [if_pos rfl]
    · have hk1 : k1 ≠ k := by
        intro hc
        subst hc
        have := hnd
        simp only [NodupKeys, keysOf, List.map_cons, List.nodup_cons] at this
        exact this.1 (List.mem_map_of_mem Prod.fst h2)
      rw [if_neg hk1]
      apply ih ?_ h2
      have := hnd
      simp only [NodupKeys, keysOf, List.map_cons, List.nodup_cons] at this
      exact this.2

theorem lookupD_append_single (m : ResMap) (k2 k : String) (l2 : List Val) :
    lookupD (m ++ [(k2, l2)]) k =
      if hasKind m k then lookupD m k else (if k2 = k then l2 else []) := by
  induction m with
  | nil =>
    show lookupD [(k2, l2)] k = _
    rw [lookupD_cons]
    have : hasKind ([] : ResMap) k = false := rfl
    rw [this]
    simp [lookupD]
  | cons p rest ih =>
    obtain ⟨k1, l1⟩ := p
    show lookupD ((k1, l1) :: (rest ++ [(k2, l2)])) k = _
    rw [lookupD_cons, hasKind_cons, lookupD_cons]
    by_cases hk1 : k1 = k
    · rw [if_pos hk1, if_pos hk1, if_pos hk1]
      simp
    · rw [if_neg hk1, if_neg hk1, if_neg hk1]
      exact ih

theorem hasKind_append_single (m : ResMap) (k2 k : String) (l2 : List Val) :
    hasKind (m ++ [(k2, l2)]) k = (hasKind m k || (k2 == k)) := by
  rw [hasKind, hasKind, List.any_append]
  simp [List.any_cons]

/-- One step of the `schema_add` fold. -/
theorem schema_add_step_lookupD (self : ResMap) (k2 : String) (l2 : List Val)
    (k : String) :
    lookupD (if hasKind self k2 then setKind self k2 (lookupD self k2 ++ l2)
             else self ++ [(k2, l2)]) k =
      if k2 = k then lookupD self k ++ l2 else lookupD self k := by
  by_cases hk2 : k2 = k
  · subst hk2
    rw [if_pos rfl]
    by_cases hh : hasKind self k2 = true
    · rw [if_pos hh, lookupD_setKind_self hh]
    · have hh2 : hasKind self k2 = false := by
        cases h : hasKind self k2
        · rfl
        · exact absurd h hh
      rw [if_neg hh, lookupD_append_single, hh2]
      simp only [Bool.false_eq_true, if_false, if_pos rfl]
      rw [lookupD_eq_nil_of_not_hasKind hh2]
      rfl
  · rw [if_neg hk2]
    by_cases hh : hasKind self k2 = true
    · rw [if_pos hh, lookupD_setKind_ne (fun hc => hk2 hc)]
    · rw [if_neg hh, lookupD_append_single]
      by_cases hsk : hasKind self k = true
      · rw [if_pos hsk]
      · have hsk2 : hasKind self k = false := by
          cases h : hasKind self k
          · rfl
          · exact absurd h hsk
        rw [hsk2]
        simp only [Bool.false_eq_true, if_false, if_neg hk2]
        rw [lookupD_eq_nil_of_not_hasKind hsk2]

theorem schema_add_step_hasKind (self : ResMap) (k2 : String) (l2 : List Val)
    (k : String) :
    hasKind (if hasKind self k2 then setKind self k2 (lookupD self k2 ++ l2)
             else self ++ [(k2, l2)]) k = (hasKind self k || (k2 == k)) := by
  by_cases hh : hasKind self k2 = true
  · rw [if_pos hh, hasKind_setKind]
    by_cases hk2 : k2 = k
    · subst hk2
      rw [hh]
      simp
    · have : (k2 == k) = false := by simpa using hk2
      rw [this]
      simp
  · rw [if_neg hh, hasKind_append_single]

theorem lookupD_schema_add :
    ∀ {more : ResMap} (self : ResMap), NodupKeys more → ∀ k,
      lookupD (schema_add self more) k = lookupD self k ++ lookupD more k := by
  intro more
  induction more with
  | nil =>
    intro self _ k
    show lookupD self k = _
    rw [lookupD]
    show _ = lookupD self k ++ []
    rw [List.append_nil]
    rfl
  | cons kv rest ih =>
    intro self hnd k
    obtain ⟨k2, l2⟩ := kv
    have hnd2 : NodupKeys rest := by
      have := hnd
      simp only [NodupKeys, keysOf, List.map_cons, List.nodup_cons] at this
      exact this.2
    have hk2_not : k2 ∉ keysOf rest := by
      have := hnd
      simp only [NodupKeys, keysOf, List.map_cons, List.nodup_cons] at this
      exact this.1
    show lookupD (schema_add
      (if hasKind self k2 then setKind self k2 (lookupD self k2 ++ l2)
       else self ++ [(k2, l2)]) rest) k = _
    rw [ih _ hnd2 k, schema_add_step_lookupD, lookupD_cons]
    by_cases hk : k2 = k
    · subst hk
      rw [if_pos rfl, if_pos rfl]
      rw [lookupD_eq_nil_of_not_mem_keys hk2_not]
      rw [List.append_nil]
    · rw [if_neg hk, if_neg hk]

theorem hasKind_schema_add :
    ∀ {more : ResMap} (self : ResMap) (k : String),
      hasKind (schema_add self more) k = (hasKind self k || hasKind more k) := by
  intro more
  induction more with
  | nil =>
    intro self k
    show hasKind self k = _
    cases h : hasKind self k <;> rfl
  | cons kv rest ih =>
    intro self k
    obtain ⟨k2, l2⟩ := kv
    show hasKind (schema_add
      (if hasKind self k2 then setKind self k2 (lookupD self k2 ++ l2)
       else self ++ [(k2, l2)]) rest) k = _
    rw [ih, schema_add_step_hasKind, hasKind_cons]
    by_cases hk : k2 = k
    · subst hk
      rw [if_pos rfl]
      simp
    · have hb : (k2 == k) = false := by simpa using hk
      rw [hb, if_neg hk]
      simp

theorem AllHashedMap_lookupD {m : ResMap} (h : AllHashedMap m) (k : String) :
    AllHashed (lookupD m k) := by
  rw [lookupD]
  cases hf : m.find? (fun p => p.1 == k) with
  | none => intro it hit; simp at hit
  | some q =>
    have hq : q ∈ m := List.mem_of_find?_eq_some hf
    exact h q hq

theorem drop_go_sublist :
    ∀ {reserved self final : ResMap},
      drop_go true self reserved = .ok final →
      ∀ k, (lookupD final k).Sublist (lookupD self k) := by
  intro reserved
  induction reserved with
  | nil =>
    intro self final hok k
    rw [drop_go] at hok
    cases hok
    exact List.Sublist.refl _
  | cons p rest ih =>
    intro self final hok k
    obtain ⟨key, rlist⟩ := p
    rw [drop_go] at hok
    split at hok
    · exact Except.noConfusion hok
    case _ new_list hnew =>
      have hsub : new_list.Sublist (lookupD self key) := dropList_ok_sublist hnew
      by_cases hempty : new_list.isEmpty
      · rw [if_pos hempty] at hok
        split at hok
        case _ hhk =>
          have := ih hok k
          refine this.trans ?_
          by_cases hk : k = key
          · subst hk
            rw [lookupD_eraseKind_self]
            exact List.nil_sublist _
          · rw [lookupD_eraseKind_ne (fun hc => hk hc.symm),
              lookupD_setKind_ne (fun hc => hk hc.symm)]
        · exact Except.noConfusion hok
      · rw [if_neg hempty] at hok
        have := ih hok k
        refine this.trans ?_
        by_cases hk : k = key
        · subst hk
          by_cases hhk : hasKind self k = true
          · rw [lookupD_setKind_self hhk]
            exact hsub
          · have hh2 : hasKind self k = false := by
              cases h : hasKind self k
              · rfl
              · exact absurd h hhk
            have h0 : lookupD self k = [] := lookupD_eq_nil_of_not_hasKind hh2
            have : lookupD (setKind self k new_list) k = [] := by
              apply lookupD_eq_nil_of_not_hasKind
              rw [hasKind_setKind]
              exact hh2
            rw [this, h0]
        · rw [lookupD_setKind_ne (fun hc => hk hc.symm)]

theorem multiset_le_append_right (A B : List Val) :
    (↑B : Multiset Val) ≤ ↑(A ++ B) := by
  have h : (↑(A ++ B) : Multiset Val) = ↑A + ↑B := rfl
  rw [h]
  rw [Multiset.le_iff_count]
  intro a
  rw [Multiset.count_add]
  omega

/-- C3: for every hashed catalog and record and every reservation that
succeeds, freeing the handle's original reserved set restores the
persisted record to the same per-kind hash multiset as before the
reservation, so the available catalog (catalog minus record) is
indistinguishable by hashes from its pre-reservation state. -/
theorem C3_reserve_then_free_restores
    (catalog record want : ResMap) (origin : String) (record2 tbr : ResMap)
    (hcat : AllHashedMap catalog)
    (hrec : AllHashedMap record)
    (hwant : NodupKeys want)
    (hok : ResourcesPool.reserve catalog record want origin = .ok (record2, tbr)) :
    ∃ record3, ResourcesPool.free record2 tbr = .ok record3 ∧
      ∀ k, (↑(hashesAt record3 k) : Multiset Val) = ↑(hashesAt record k) := by
  rw [ResourcesPool.reserve] at hok
  split at hok
  · exact Except.noConfusion hok
  case _ available havail =>
    split at hok
    · exact Except.noConfusion hok
    case _ tbr0 hfind =>
      rw [Except.ok.injEq, Prod.mk.injEq] at hok
      obtain ⟨hrec2, htbr⟩ := hok
      subst htbr
      subst hrec2
      set tbrM := mark_reserved_by tbr0 origin with htbrM
      -- keys
      have hkeys0 : keysOf tbr0 = keysOf (sortByKey want) := find_go_keys hfind
      have hndw : NodupKeys (sortByKey want) := by
        show (keysOf (sortByKey want)).Nodup
        have hp : List.Perm (keysOf (sortByKey want)) (keysOf want) :=
          (sortByKey_perm want).map Prod.fst
        exact hp.nodup_iff.mpr hwant
      have hnd0 : NodupKeys tbr0 := by
        show (keysOf tbr0).Nodup
        rw [hkeys0]
        exact hndw
      have hndM : NodupKeys tbrM := by
        show (keysOf tbrM).Nodup
        rw [htbrM, keysOf_mark]
        exact hnd0
      -- items of tbr0 live in the catalog
      have hav_sub : ∀ k, (lookupD available k).Sublist (lookupD catalog k) := by
        have h2 : drop_go true catalog record = .ok available := havail
        exact drop_go_sublist h2
      have htbr0_items : ∀ p ∈ tbr0, ∀ it ∈ (p : String × List Val).2,
          it ∈ lookupD catalog p.1 := by
        intro p hp it hit
        obtain ⟨wl, _, hfk⟩ := find_go_ok_entry hfind p hp
        exact (hav_sub p.1).mem (find_kind_ok_mem hfk it hit)
      have htbr0_hashed : ∀ p ∈ tbr0, AllHashed (p : String × List Val).2 :=
        fun p hp it hit => AllHashedMap_lookupD hcat p.1 it (htbr0_items p hp it hit)
      have htbrM_hashed : ∀ p ∈ tbrM, AllHashed (p : String × List Val).2 := by
        intro p hp
        rw [htbrM, mark_reserved_by] at hp
        obtain ⟨q, hq, rfl⟩ := List.mem_map.mp hp
        exact AllHashed_mark_list (htbr0_hashed q hq) origin
      -- the drop_go_spec preconditions on (record2, tbrM)
      have hlook2 : ∀ k, lookupD (schema_add record tbrM) k =
          lookupD record k ++ lookupD tbrM k :=
        lookupD_schema_add record hndM
      have h_sh : ∀ p ∈ tbrM, AllHashed (lookupD (schema_add record tbrM)
          (p : String × List Val).1) := by
        intro p hp it hit
        rw [hlook2] at hit
        rcases List.mem_append.mp hit with h1 | h2
        · exact AllHashedMap_lookupD hrec p.1 it h1
        · rw [lookupD_of_mem_nodup hndM (show (p.1, p.2) ∈ tbrM from hp)] at h2
          exact htbrM_hashed p hp it h2
      have h_le : ∀ p ∈ tbrM, (↑(hashesOf (p : String × List Val).2) : Multiset Val) ≤
          ↑(hashesOf (lookupD (schema_add record tbrM) p.1)) := by
        intro p hp
        rw [hlook2, lookupD_of_mem_nodup hndM (show (p.1, p.2) ∈ tbrM from hp)]
        simp only [hashesOf, List.map_append]
        exact multiset_le_append_right _ _
      have h_hk : ∀ p ∈ tbrM, hasKind (schema_add record tbrM)
          (p : String × List Val).1 = true := by
        intro p hp
        rw [hasKind_schema_add]
        rw [hasKind_of_mem (show (p.1, p.2) ∈ tbrM from hp)]
        simp
      obtain ⟨record3, hok3, hprop, hpres⟩ :=
        drop_go_spec hndM h_sh htbrM_hashed h_le h_hk
      refine ⟨record3, hok3, ?_⟩
      intro k
      by_cases hm : k ∈ keysOf tbrM
      · obtain ⟨p, hp, hpk⟩ := List.mem_map.mp hm
        have hq := hprop p hp
        rw [hpk] at hq
        have hpk2 : lookupD tbrM k = p.2 := by
          rw [← hpk]
          exact lookupD_of_mem_nodup hndM (show (p.1, p.2) ∈ tbrM from hp)
        rw [hq]
        simp only [hashesAt]
        rw [hlook2 k, hpk2]
        simp only [hashesOf, List.map_append]
        have hco : (↑(List.map pyhash (lookupD record k) ++ List.map pyhash p.2) :
            Multiset Val) = ↑(List.map pyhash (lookupD record k)) + ↑(List.map pyhash p.2) := rfl
        rw [hco, add_tsub_cancel_right]
      · have h1 := hpres k hm
        simp only [hashesAt]
        rw [h1, hlook2, lookupD_eq_nil_of_not_mem_keys hm, List.append_nil]

instance (m : ResMap) : Decidable (AllHashedMap m) := by
  unfold AllHashedMap
  exact inferInstance

/-- `modemA` stamped by reserve for origin "A". -/
def markedA : Val :=
  .vdict [("type", .vstr "sysmoA"), (HASH_KEY, .vstr "h1"), (RESERVED_KEY, .vstr "A")]

theorem C3_reserve_then_free_restores_witness :
    ∃ record3,
      ResourcesPool.free [("modem", [markedA])] [("modem", [markedA])] = .ok record3 ∧
      ∀ k, (↑(hashesAt record3 k) : Multiset Val) = ↑(hashesAt ([] : ResMap) k) :=
  C3_reserve_then_free_restores [("modem", [modemA])] [] [("modem", [.vdict []])]
    "A" [("modem", [markedA])] [("modem", [markedA])]
    (by decide) (by decide) (by decide) rfl

def catalogC2 : ResMap := [("modem", [modemA])]

def wantC2 : ResMap := [("modem", [.vdict []])]

/-- `modemA` as granted to origin "suite-A" / "suite-B". -/
def grantedToA : Val :=
  .vdict [("type", .vstr "sysmoA"), (HASH_KEY, .vstr "h1"), (RESERVED_KEY, .vstr "suite-A")]

def grantedToB : Val :=
  .vdict [("type", .vstr "sysmoA"), (HASH_KEY, .vstr "h1"),
    (RESERVED_KEY, .vstr "suite-B")]

/-- C2 counterexample: two reservation attempts by the distinct origins
"suite-A" and "suite-B", wanting one modem each from a catalog holding a
single modem, interleaved as acquire/acquire/read/read/write/write — a
schedule the per-origin file locks do not forbid, since each attempt locks
only its own origin-named lock.  Both attempts complete and BOTH are
granted the catalog item with hash "h1". -/
theorem C2_counterexample :
    runG catalogC2 wantC2 wantC2 "suite-A" "suite-B"
        [0, 1, 0, 1, 0, 1, 0, 1] (initG []) =
      some { locks := [], file := [("modem", [grantedToB])],
             p1 := { pc := 4, localRec := [],
                     result := some (.ok [("modem", [grantedToA])]) },
             p2 := { pc := 4, localRec := [],
                     result := some (.ok [("modem", [grantedToB])]) } } ∧
      pyhash grantedToA = .vstr "h1" ∧ pyhash grantedToB = .vstr "h1" ∧
      "suite-A" ≠ "suite-B" :=
  ⟨rfl, rfl, rfl, by decide⟩

theorem keysOf_setKind (m : ResMap) (k : String) (l : List Val) :
    keysOf (setKind m k l) = keysOf m := by
  rw [keysOf, setKind, List.map_map, keysOf]
  apply List.map_congr_left
  intro p _
  by_cases h : (p.1 == k) = true <;> simp [Function.comp, h]

theorem not_mem_keys_of_hasKind_false {m : ResMap} {k : String}
    (h : hasKind m k = false) : k ∉ keysOf m := by
  intro hc
  rw [keysOf] at hc
  obtain ⟨p, hp, hpk⟩ := List.mem_map.mp hc
  have h2 : hasKind m k = true := by
    rw [hasKind, List.any_eq_true]
    exact ⟨p, hp, by simpa using hpk⟩
  rw [h] at h2
  exact Bool.noConfusion h2

theorem schema_add_nodup :
    ∀ {more self : ResMap}, NodupKeys self → NodupKeys (schema_add self more) := by
  intro more
  induction more with
  | nil => intro self h; exact h
  | cons kv rest ih =>
    intro self h
    obtain ⟨k2, l2⟩ := kv
    show NodupKeys (schema_add
      (if hasKind self k2 then setKind self k2 (lookupD self k2 ++ l2)
       else self ++ [(k2, l2)]) rest)
    apply ih
    by_cases hh : hasKind self k2 = true
    · rw [if_pos hh]
      show (keysOf (setKind self k2 (lookupD self k2 ++ l2))).Nodup
      rw [keysOf_setKind]
      exact h
    · have hh2 : hasKind self k2 = false := by
        cases hx : hasKind self k2
        · rfl
        · exact absurd hx hh
      rw [if_neg hh]
      show (keysOf (self ++ [(k2, l2)])).Nodup
      rw [keysOf, List.map_append]
      rw [List.nodup_append]
      refine ⟨h, by simp, ?_⟩
      intro a ha hb
      have : a = k2 := by simpa using hb
      subst this
      exact not_mem_keys_of_hasKind_false hh2 ha

theorem map_getD_hashes_le {l : List Val} {idxs : List Nat}
    (hnd : idxs.Nodup) (hlt : ∀ i ∈ idxs, i < l.length)
    (hh : (hashesOf l).Nodup) :
    (↑(hashesOf (idxs.map (fun i => l.getD i .vnone))) : Multiset Val) ≤
      ↑(hashesOf l) := by
  rw [Multiset.coe_le]
  have hmap : hashesOf (idxs.map (fun i => l.getD i .vnone)) =
      idxs.map (fun i => pyhash (l.getD i .vnone)) := by
    rw [hashesOf, List.map_map]
    rfl
  rw [hmap]
  apply List.Nodup.subperm
  · apply List.Nodup.map_on ?_ hnd
    intro i hi j hj hij
    have hil := hlt i hi
    have hjl := hlt j hj
    have hil2 : i < (List.map pyhash l).length := by simpa using hil
    have hjl2 : j < (List.map pyhash l).length := by simpa using hjl
    have h1 : pyhash (l.getD i .vnone) = (hashesOf l).get ⟨i, by simpa [hashesOf] using hil⟩ := by
      rw [List.get_eq_getElem]
      show pyhash (l.getD i .vnone) = (List.map pyhash l)[i]
      rw [List.getElem_map, List.getD_eq_getElem l .vnone hil]
    have h2 : pyhash (l.getD j .vnone) = (hashesOf l).get ⟨j, by simpa [hashesOf] using hjl⟩ := by
      rw [List.get_eq_getElem]
      show pyhash (l.getD j .vnone) = (List.map pyhash l)[j]
      rw [List.getElem_map, List.getD_eq_getElem l .vnone hjl]
    rw [h1, h2] at hij
    have := (List.Nodup.get_inj_iff hh).mp hij
    simpa using this
  · intro a ha
    obtain ⟨i, hi, rfl⟩ := List.mem_map.mp ha
    have hil := hlt i hi
    rw [hashesOf]
    apply List.mem_map_of_mem
    rw [List.getD_eq_getElem l .vnone hil]
    exact List.getElem_mem hil

theorem find_kind_indices_ok_nodup {my_list want_list : List Val}
    {skip : Option String} {rim : Bool} {key : String} {idxs : List Nat}
    (h : find_kind_indices my_list want_list skip rim key = .ok idxs) :
    idxs.Nodup := by
  rw [find_kind_indices] at h
  split at h
  · split at h
    · exact Except.noConfusion h
    · cases h; exact List.nodup_nil
  case _ all_matches hb =>
    split at h
    · cases h; exact List.nodup_nil
    case _ hne =>
      split at h
      case _ s hs =>
        cases h
        exact (solve_ok_isSDR hs).2.1
      · exact Except.noConfusion h
      · exact Except.noConfusion h

theorem find_kind_hashes_le {my_list want_list : List Val} {skip : Option String}
    {rim : Bool} {key : String} {picked : List Val}
    (hh : (hashesOf my_list).Nodup)
    (h : find_kind my_list want_list skip rim key = .ok picked) :
    (↑(hashesOf picked) : Multiset Val) ≤ ↑(hashesOf my_list) := by
  rw [find_kind] at h
  split at h
  · exact Except.noConfusion h
  case _ idxs hi =>
    cases h
    apply map_getD_hashes_le (find_kind_indices_ok_nodup hi) ?_ hh
    intro i hmem
    obtain ⟨w, _, him⟩ := find_kind_indices_ok_mem hi i hmem
    exact (mem_match_indices him).1

theorem mem_of_lookupD_ne_nil {m : ResMap} {k : String}
    (h : lookupD m k ≠ []) : (k, lookupD m k) ∈ m := by
  rw [lookupD] at h ⊢
  cases hf : m.find? (fun p => p.1 == k) with
  | none => rw [hf] at h; simp at h
  | some q =>
    have hq : q ∈ m := List.mem_of_find?_eq_some hf
    have hk : q.1 = k := by
      have := List.find?_some hf
      simpa using this
    show (k, q.2) ∈ m
    rw [← hk]
    exact hq

theorem hasKind_exists_entry {m : ResMap} {k : String}
    (h : hasKind m k = true) : ∃ l, (k, l) ∈ m := by
  rw [hasKind, List.any_eq_true] at h
  obtain ⟨q, hq, hqk⟩ := h
  have : q.1 = k := by simpa using hqk
  exact ⟨q.2, by rw [← this]; exact hq⟩

theorem build_all_matches_length {my_list : List Val} {skip : Option String} :
    ∀ {ws : List Val} {ls : List (List Nat)},
      build_all_matches my_list skip ws = .built ls → ls.length = ws.length := by
  intro ws
  induction ws with
  | nil =>
    intro ls h
    rw [build_all_matches] at h
    cases h
    rfl
  | cons w ws2 ih =>
    intro ls h
    rw [build_all_matches] at h
    split at h
    · exact AllMatches.noConfusion h
    split at h
    · exact AllMatches.noConfusion h
    case _ rest hb =>
      cases h
      simp [ih hb]

theorem find_kind_indices_length {my_list want_list : List Val}
    {skip : Option String} {key : String} {idxs : List Nat}
    (h : find_kind_indices my_list want_list skip true key = .ok idxs) :
    idxs.length = want_list.length := by
  rw [find_kind_indices] at h
  split at h
  · rw [if_pos rfl] at h
    exact Except.noConfusion h
  case _ all_matches hb =>
    have hlen := build_all_matches_length hb
    split at h
    case _ hne =>
      cases h
      have : all_matches = [] := by
        cases all_matches with
        | nil => rfl
        | cons a b => simp at hne
      rw [this] at hlen
      simpa using hlen
    case _ hne =>
      split at h
      case _ s hs =>
        cases h
        rw [(solve_ok_isSDR hs).1, hlen]
      · exact Except.noConfusion h
      · exact Except.noConfusion h

theorem find_kind_length {my_list want_list : List Val} {skip : Option String}
    {key : String} {picked : List Val}
    (h : find_kind my_list want_list skip true key = .ok picked) :
    picked.length = want_list.length := by
  rw [find_kind] at h
  split at h
  · exact Except.noConfusion h
  case _ idxs hi =>
    cases h
    rw [List.length_map]
    exact find_kind_indices_length hi

theorem reserve_of_without_find {catalog record want av : ResMap} {o : String}
    (hw : without catalog record = .ok av) :
    ResourcesPool.reserve catalog record want o =
      match find av want none true with
      | .error e => .error e
      | .ok tbr0 =>
        .ok (schema_add record (mark_reserved_by tbr0 o), mark_reserved_by tbr0 o) := by
  rw [ResourcesPool.reserve, hw]

/-- C2 (as amended): the reservation store locks per caller identity, so
two attempts that share an origin are serialized; for reservation attempts
executed one after the other (the situation the lock actually enforces)
the engine never grants the same catalog item twice: over a hash-unique
catalog, the second attempt either fails with NoResourceExn or is granted
items whose hashes are disjoint, kind by kind, from the first grant. -/
theorem C2_amended
    (catalog record want1 want2 : ResMap) (o1 o2 : String)
    (record2 tbr1 : ResMap)
    (hcat : AllHashedMap catalog)
    (hcat_nodup : ∀ k, (hashesAt catalog k).Nodup)
    (hrec : AllHashedMap record)
    (hrecnd : NodupKeys record)
    (hrec_le : ∀ k, (↑(hashesAt record k) : Multiset Val) ≤ ↑(hashesAt catalog k))
    (hrec_keys : ∀ p ∈ record, hasKind catalog (p : String × List Val).1 = true)
    (hwant1 : NodupKeys want1)
    (hwant1_ne : ∀ p ∈ want1, (p : String × List Val).2 ≠ [])
    (h1 : ResourcesPool.reserve catalog record want1 o1 = .ok (record2, tbr1)) :
    (∃ msg, ResourcesPool.reserve catalog record2 want2 o2 =
        .error (.noResourceExn msg)) ∨
    (∃ record3 tbr2,
        ResourcesPool.reserve catalog record2 want2 o2 = .ok (record3, tbr2) ∧
        ∀ p ∈ tbr2, ∀ it ∈ (p : String × List Val).2,
          pyhash it ∉ hashesOf (lookupD tbr1 p.1)) := by
  -- anatomy of the first reserve
  rw [ResourcesPool.reserve] at h1
  split at h1
  · exact Except.noConfusion h1
  case _ avail1 havail1 =>
    split at h1
    · exact Except.noConfusion h1
    case _ tbr0 hfind1 =>
      rw [Except.ok.injEq, Prod.mk.injEq] at h1
      obtain ⟨hrec2_def, htbr1_def⟩ := h1
      subst htbr1_def
      subst hrec2_def
      set tbrM := mark_reserved_by tbr0 o1 with htbrM
      set record2 := schema_add record tbrM with hrecord2
      -- step 2: the first available pool
      have havail1_go : drop_go true catalog record = .ok avail1 := havail1
      have hav1_sub : ∀ k, (lookupD avail1 k).Sublist (lookupD catalog k) :=
        drop_go_sublist havail1_go
      have hav1_eq : ∀ k, (↑(hashesAt avail1 k) : Multiset Val) =
          ↑(hashesAt catalog k) - ↑(hashesAt record k) := by
        intro k
        obtain ⟨hprop, hpres⟩ := drop_go_ok_hashes hrecnd
          (fun p _ => AllHashedMap_lookupD hcat p.1) havail1_go
        by_cases hm : k ∈ keysOf record
        · obtain ⟨p, hp, hpk⟩ := List.mem_map.mp hm
          have hx := hprop p hp
          rw [hpk] at hx
          have h6 : hashesAt record k = hashesOf p.2 := by
            rw [hashesAt, ← hpk]
            rw [lookupD_of_mem_nodup hrecnd (show (p.1, p.2) ∈ record from hp)]
          rw [hx, h6]
        · have h6 : hashesAt record k = [] := by
            rw [hashesAt, lookupD_eq_nil_of_not_mem_keys hm]
            rfl
          rw [hashesAt, hpres k hm, h6]
          show (↑(hashesOf (lookupD catalog k)) : Multiset Val) =
            ↑(hashesAt catalog k) - ↑([] : List Val)
          simp [hashesOf, hashesAt]
      have hav1_nodup : ∀ k, (hashesOf (lookupD avail1 k)).Nodup := by
        intro k
        have hle : (↑(hashesAt avail1 k) : Multiset Val) ≤ ↑(hashesAt catalog k) := by
          rw [hav1_eq]
          exact tsub_le_self
        have h2 : (↑(hashesAt avail1 k) : Multiset Val).Nodup :=
          Multiset.nodup_of_le hle (by
            rw [Multiset.coe_nodup]
            exact hcat_nodup k)
        rw [Multiset.coe_nodup] at h2
        exact h2
      -- step 3: structure of the first grant
      have hkeys0 : keysOf tbr0 = keysOf (sortByKey want1) := find_go_keys hfind1
      have hndw : NodupKeys (sortByKey want1) := by
        show (keysOf (sortByKey want1)).Nodup
        exact ((sortByKey_perm want1).map Prod.fst).nodup_iff.mpr hwant1
      have hnd0 : NodupKeys tbr0 := by
        show (keysOf tbr0).Nodup
        rw [hkeys0]
        exact hndw
      have hndM : NodupKeys tbrM := by
        show (keysOf tbrM).Nodup
        rw [htbrM, keysOf_mark]
        exact hnd0
      have hlookM : ∀ k, lookupD tbrM k =
          (lookupD tbr0 k).map (fun it => dictSet it RESERVED_KEY (.vstr o1)) :=
        fun k => htbrM ▸ lookupD_mark tbr0 o1 k
      have htbrM_hashes : ∀ k, hashesOf (lookupD tbrM k) = hashesOf (lookupD tbr0 k) := by
        intro k
        rw [hlookM, hashesOf_mark_list]
      have htbr0_allhashed : ∀ k, AllHashed (lookupD tbr0 k) := by
        intro k
        by_cases hm : lookupD tbr0 k = []
        · rw [hm]
          intro it hit
          simp at hit
        · obtain ⟨wl, _, hfk⟩ := find_go_ok_entry hfind1 (k, lookupD tbr0 k)
            (mem_of_lookupD_ne_nil hm)
          intro it hit
          have := find_kind_ok_mem hfk it hit
          exact AllHashedMap_lookupD hcat k it ((hav1_sub k).mem this)
      have htbrM_allhashed : ∀ k, AllHashed (lookupD tbrM k) := by
        intro k
        rw [hlookM]
        exact AllHashed_mark_list (htbr0_allhashed k) o1
      -- step 4: the first grant fits in the first availability, per kind
      have htbr0_le : ∀ k, (↑(hashesOf (lookupD tbr0 k)) : Multiset Val) ≤
          ↑(hashesOf (lookupD avail1 k)) := by
        intro k
        by_cases hm : lookupD tbr0 k = []
        · rw [hm]
          show (↑(hashesOf ([] : List Val)) : Multiset Val) ≤ _
          simp [hashesOf]
        · obtain ⟨wl, _, hfk⟩ := find_go_ok_entry hfind1 (k, lookupD tbr0 k)
            (mem_of_lookupD_ne_nil hm)
          exact find_kind_hashes_le (hav1_nodup k) hfk
      -- step 5: the written-back record is still within the catalog
      have hlook2 : ∀ k, lookupD record2 k = lookupD record k ++ lookupD tbrM k :=
        lookupD_schema_add record hndM
      have hrec2_le : ∀ k, (↑(hashesAt record2 k) : Multiset Val) ≤
          ↑(hashesAt catalog k) := by
        intro k
        have hco : (↑(hashesAt record2 k) : Multiset Val) =
            ↑(hashesOf (lookupD record k)) + ↑(hashesOf (lookupD tbrM k)) := by
          rw [hashesAt, hlook2]
          simp only [hashesOf, List.map_append]
          rfl
        rw [hco]
        have h5 : (↑(hashesOf (lookupD tbrM k)) : Multiset Val) ≤
            ↑(hashesAt catalog k) - ↑(hashesAt record k) := by
          rw [htbrM_hashes, ← hav1_eq]
          exact htbr0_le k
        calc (↑(hashesOf (lookupD record k)) : Multiset Val) + ↑(hashesOf (lookupD tbrM k))
            ≤ ↑(hashesOf (lookupD record k)) +
              (↑(hashesAt catalog k) - ↑(hashesAt record k)) := by
              exact add_le_add_left h5 _
          _ = ↑(hashesAt catalog k) := add_tsub_cancel_of_le (hrec_le k)
      have hrec2_nd : NodupKeys record2 := schema_add_nodup hrecnd
      have hrec2_allhashed : ∀ p ∈ record2, AllHashed (p : String × List Val).2 := by
        intro p hp it hit
        rw [← lookupD_of_mem_nodup hrec2_nd (show (p.1, p.2) ∈ record2 from hp)] at hit
        rw [hlook2] at hit
        rcases List.mem_append.mp hit with h2 | h2
        · exact AllHashedMap_lookupD hrec p.1 it h2
        · exact htbrM_allhashed p.1 it h2
      have hrec2_keys : ∀ p ∈ record2, hasKind catalog (p : String × List Val).1 = true := by
        intro p hp
        have hk2 : hasKind record2 p.1 = true := hasKind_of_mem
          (show (p.1, p.2) ∈ record2 from hp)
        rw [hrecord2, hasKind_schema_add] at hk2
        rcases Bool.or_eq_true_iff.mp hk2 with hk3 | hk3
        · obtain ⟨l, hl⟩ := hasKind_exists_entry hk3
          exact hrec_keys (p.1, l) hl
        · -- the kind came from the first grant, whose picked lists are non-empty
          obtain ⟨l, hl⟩ := hasKind_exists_entry hk3
          have hlk : lookupD tbrM p.1 = l := lookupD_of_mem_nodup hndM hl
          rw [htbrM, mark_reserved_by] at hl
          obtain ⟨q0, hq0, hq0eq⟩ := List.mem_map.mp hl
          have hq0k : q0.1 = p.1 := (Prod.ext_iff.mp hq0eq).1
          obtain ⟨wl, hwl, hfk⟩ := find_go_ok_entry hfind1 q0 hq0
          have hwl_ne : wl ≠ [] := by
            have hmem_w1 : (q0.1, wl) ∈ want1 :=
              (sortByKey_perm want1).mem_iff.mp hwl
            exact hwant1_ne (q0.1, wl) hmem_w1
          have hlen := find_kind_length hfk
          have hq0_ne : q0.2 ≠ [] := by
            intro hc
            rw [hc] at hlen
            cases wl with
            | nil => exact hwl_ne rfl
            | cons a b => simp at hlen
          obtain ⟨it, hit⟩ := List.exists_mem_of_ne_nil q0.2 hq0_ne
          have hin_avail : it ∈ lookupD avail1 q0.1 := find_kind_ok_mem hfk it hit
          have hin_cat : it ∈ lookupD catalog q0.1 := (hav1_sub q0.1).mem hin_avail
          rw [hq0k] at hin_cat
          apply lookupD_ne_nil_hasKind
          intro hc
          rw [hc] at hin_cat
          simp at hin_cat
      -- step 6: the second availability computation succeeds
      obtain ⟨avail2, havail2_go, hprop2, hpres2⟩ := drop_go_spec hrec2_nd
        (fun p _ => AllHashedMap_lookupD hcat p.1)
        hrec2_allhashed
        (fun p hp => by
          rw [← lookupD_of_mem_nodup hrec2_nd (show (p.1, p.2) ∈ record2 from hp)]
          exact hrec2_le p.1)
        hrec2_keys
      have havail2_eq : ∀ k, (↑(hashesAt avail2 k) : Multiset Val) =
          ↑(hashesAt catalog k) - ↑(hashesAt record2 k) := by
        intro k
        by_cases hm : k ∈ keysOf record2
        · obtain ⟨p, hp, hpk⟩ := List.mem_map.mp hm
          have hx := hprop2 p hp
          rw [hpk] at hx
          have h6 : hashesAt record2 k = hashesOf p.2 := by
            rw [hashesAt, ← hpk]
            rw [lookupD_of_mem_nodup hrec2_nd (show (p.1, p.2) ∈ record2 from hp)]
          rw [hx, h6]
        · have h6 : hashesAt record2 k = [] := by
            rw [hashesAt, lookupD_eq_nil_of_not_mem_keys hm]
            rfl
          rw [hashesAt, hpres2 k hm, h6]
          show (↑(hashesOf (lookupD catalog k)) : Multiset Val) =
            ↑(hashesAt catalog k) - ↑([] : List Val)
          simp [hashesOf, hashesAt]
      have hw2 : without catalog record2 = .ok avail2 := havail2_go
      -- step 7: run the second find
      cases hfind2 : find avail2 want2 none true with
      | error e =>
        left
        obtain ⟨msg, hmsg⟩ := find_err hfind2
        refine ⟨msg, ?_⟩
        rw [reserve_of_without_find hw2, hfind2, hmsg]
      | ok t2_0 =>
        right
        refine ⟨schema_add record2 (mark_reserved_by t2_0 o2),
          mark_reserved_by t2_0 o2, ?_, ?_⟩
        · rw [reserve_of_without_find hw2, hfind2]
        · intro p hp it hit hconin
          rw [mark_reserved_by] at hp
          obtain ⟨q, hq, hqeq⟩ := List.mem_map.mp hp
          have hqk : q.1 = p.1 := (Prod.ext_iff.mp hqeq).1
          have hqsnd : p.2 = q.2.map (fun x => dictSet x RESERVED_KEY (.vstr o2)) :=
            ((Prod.ext_iff.mp hqeq).2).symm
          rw [hqsnd] at hit
          obtain ⟨it0, hit0, rfl⟩ := List.mem_map.mp hit
          rw [pyhash_mark_item] at hconin
          obtain ⟨wl2, _, hfk2⟩ := find_go_ok_entry hfind2 q hq
          have hin_avail2 : it0 ∈ lookupD avail2 q.1 := find_kind_ok_mem hfk2 it0 hit0
          -- the hash is available for the second reservation but also
          -- recorded by the first: impossible over a hash-unique catalog
          set h0 := pyhash it0 with hh0
          have hmem_avail2 : h0 ∈ hashesAt avail2 q.1 := by
            rw [hashesAt, hashesOf]
            exact List.mem_map_of_mem pyhash hin_avail2
          have hmem_rec2 : h0 ∈ hashesAt record2 q.1 := by
            rw [hashesAt, hlook2]
            rw [hashesOf, List.map_append]
            apply List.mem_append_right
            rw [← hashesOf]
            rw [hqk]
            exact hconin
          have hc1 : Multiset.count h0 (↑(hashesAt catalog q.1) : Multiset Val) ≤ 1 := by
            have := hcat_nodup q.1
            rw [← Multiset.coe_nodup] at this
            exact Multiset.nodup_iff_count_le_one.mp this h0
          have hc2 : 1 ≤ Multiset.count h0 (↑(hashesAt record2 q.1) : Multiset Val) :=
            Multiset.count_pos.mpr (by simpa using hmem_rec2)
          have hc3 : 1 ≤ Multiset.count h0 (↑(hashesAt avail2 q.1) : Multiset Val) :=
            Multiset.count_pos.mpr (by simpa using hmem_avail2)
          have hc4 := havail2_eq q.1
          have : Multiset.count h0 (↑(hashesAt avail2 q.1) : Multiset Val) =
              Multiset.count h0 (↑(hashesAt catalog q.1) : Multiset Val) -
                Multiset.count h0 (↑(hashesAt record2 q.1) : Multiset Val) := by
            rw [hc4, Multiset.count_sub]
          omega


/-- A two-modem catalog for exercising two successive reservations. -/
def catalogAB : ResMap := [("modem", [modemA, modemB])]

theorem C2_amended_witness :
    (∃ msg, ResourcesPool.reserve catalogAB [("modem", [grantedToA])] wantC2 "suite-B" =
        .error (.noResourceExn msg)) ∨
    (∃ record3 tbr2,
        ResourcesPool.reserve catalogAB [("modem", [grantedToA])] wantC2 "suite-B" =
          .ok (record3, tbr2) ∧
        ∀ p ∈ tbr2, ∀ it ∈ (p : String × List Val).2,
          pyhash it ∉ hashesOf (lookupD [("modem", [grantedToA])] p.1)) := by
  refine C2_amended catalogAB [] wantC2 wantC2 "suite-A" "suite-B"
    [("modem", [grantedToA])] [("modem", [grantedToA])]
    (by decide) ?_ (by decide) (by decide) ?_ ?_ (by decide) (by decide) rfl
  · intro k
    rw [catalogAB, hashesAt, lookupD_cons]
    by_cases h : ("modem" : String) = k
    · rw [if_pos h]
      decide
    · rw [if_neg h]
      show (hashesOf ([] : List Val)).Nodup
      decide
  · intro k
    show (↑(hashesOf (lookupD [] k)) : Multiset Val) ≤ _
    exact zero_le _
  · intro p hp
    simp at hp

end Osmo
